import Mathlib

/-!
Verification of the active-set QP kernel `casadi_qp.hpp`.

Numbers are modelled exactly: the scalar type `ERat` is the rationals
extended with the two infinities that the solver uses as bound sentinels
(`isinf` in the source).  Operations that IEEE arithmetic leaves undefined
(such as `∞ - ∞`) are given arbitrary total values; no theorem below
depends on them.  Vectors are total functions `ℕ → ERat`; a C loop that
writes each index independently becomes a pointwise definition, a loop
that threads state becomes a fold or structural recursion over the index
list.  The sparse-BLAS primitives (`casadi_fill`, `casadi_mv`, ...) and the
QR engine are code of the repository that is not under `src/`; they are
modelled from the spec where their meaning matters and taken as opaque
parameters (`QPExt`) where it does not.
-/

/-- Scalar type of the solver: rationals extended with the infinities used
as bound sentinels. -/
inductive ERat where
  | negInf : ERat
  | fin (q : ℚ) : ERat
  | posInf : ERat
deriving DecidableEq

namespace ERat

/-- Boolean less-or-equal on `ERat` (total linear order). -/
protected def ble : ERat → ERat → Bool
  | negInf, _ => true
  | fin _, negInf => false
  | fin a, fin b => a ≤ b
  | fin _, posInf => true
  | posInf, posInf => true
  | posInf, _ => false

instance leInst : LE ERat := ⟨fun a b => ERat.ble a b = true⟩
instance ltInst : LT ERat := ⟨fun a b => ERat.ble b a = false⟩

theorem le_def {a b : ERat} : a ≤ b ↔ ERat.ble a b = true := Iff.rfl
theorem lt_def {a b : ERat} : a < b ↔ ERat.ble b a = false := Iff.rfl

instance (a b : ERat) : Decidable (a ≤ b) := by
  rw [le_def]; infer_instance

instance (a b : ERat) : Decidable (a < b) := by
  rw [lt_def]; infer_instance

/-- Negation. -/
protected def neg : ERat → ERat
  | negInf => posInf
  | fin q => fin (-q)
  | posInf => negInf

instance : Neg ERat := ⟨ERat.neg⟩

/-- Addition; the undefined case `∞ + (-∞)` is arbitrarily `fin 0`. -/
protected def add : ERat → ERat → ERat
  | fin a, fin b => fin (a + b)
  | negInf, posInf => fin 0
  | posInf, negInf => fin 0
  | negInf, _ => negInf
  | _, negInf => negInf
  | posInf, _ => posInf
  | _, posInf => posInf

instance : Add ERat := ⟨ERat.add⟩
instance : Sub ERat := ⟨fun a b => a + (-b)⟩

/-- Multiplication with the usual sign rules; `0 * ∞` is `fin 0` (exact
arithmetic, not IEEE). -/
protected def mul : ERat → ERat → ERat
  | fin a, fin b => fin (a * b)
  | fin a, posInf => if 0 < a then posInf else if a < 0 then negInf else fin 0
  | fin a, negInf => if 0 < a then negInf else if a < 0 then posInf else fin 0
  | posInf, fin b => if 0 < b then posInf else if b < 0 then negInf else fin 0
  | negInf, fin b => if 0 < b then negInf else if b < 0 then posInf else fin 0
  | posInf, posInf => posInf
  | posInf, negInf => negInf
  | negInf, posInf => negInf
  | negInf, negInf => posInf

instance : Mul ERat := ⟨ERat.mul⟩

/-- Division; division by an infinity gives `fin 0`, by zero the junk value
`fin 0` (as in Lean's rational division). -/
protected def div : ERat → ERat → ERat
  | fin a, fin b => fin (a / b)
  | posInf, fin b => if 0 < b then posInf else if b < 0 then negInf else fin 0
  | negInf, fin b => if 0 < b then negInf else if b < 0 then posInf else fin 0
  | _, posInf => fin 0
  | _, negInf => fin 0

instance : Div ERat := ⟨ERat.div⟩

/-- Absolute value (`fabs`). -/
protected def abs : ERat → ERat
  | negInf => posInf
  | fin q => fin |q|
  | posInf => posInf

/-- C `fmin`. -/
def fmin (a b : ERat) : ERat := if a ≤ b then a else b

/-- C `fmax`. -/
def fmax (a b : ERat) : ERat := if a ≤ b then b else a

/-- C `isinf`: true on either infinity. -/
def isinf : ERat → Bool
  | negInf => true
  | fin _ => false
  | posInf => true

/-- The value is finite. -/
def isFin : ERat → Bool
  | fin _ => true
  | _ => false

instance : OfNat ERat 0 := ⟨ERat.fin 0⟩
instance : OfNat ERat 1 := ⟨ERat.fin 1⟩
instance : OfNat ERat 2 := ⟨ERat.fin 2⟩

theorem zero_def : (0 : ERat) = fin 0 := rfl
theorem one_def : (1 : ERat) = fin 1 := rfl
theorem two_def : (2 : ERat) = fin 2 := rfl

@[simp] theorem fin_add_fin (a b : ℚ) : fin a + fin b = fin (a + b) := rfl
@[simp] theorem fin_mul_fin (a b : ℚ) : fin a * fin b = fin (a * b) := rfl
@[simp] theorem fin_div_fin (a b : ℚ) : fin a / fin b = fin (a / b) := rfl
@[simp] theorem neg_fin (a : ℚ) : -(fin a) = fin (-a) := rfl
@[simp] theorem fin_sub_fin (a b : ℚ) : fin a - fin b = fin (a - b) := by
  show fin a + -(fin b) = fin (a - b)
  simp [sub_eq_add_neg]

@[simp] theorem fin_le_fin {a b : ℚ} : fin a ≤ fin b ↔ a ≤ b := by
  rw [le_def]; simp [ERat.ble]

@[simp] theorem fin_lt_fin {a b : ℚ} : fin a < fin b ↔ a < b := by
  rw [lt_def]; simp [ERat.ble]

@[simp] theorem negInf_le (a : ERat) : negInf ≤ a := rfl

@[simp] theorem le_posInf (a : ERat) : a ≤ posInf := by
  cases a <;> rfl

@[simp] theorem not_lt_negInf (a : ERat) : ¬ a < negInf := by
  rw [lt_def]; simp [ERat.ble]

@[simp] theorem not_posInf_lt (a : ERat) : ¬ posInf < a := by
  rw [lt_def]; cases a <;> simp [ERat.ble]

@[simp] theorem not_fin_le_negInf (a : ℚ) : ¬ fin a ≤ negInf := by
  rw [le_def]; simp [ERat.ble]

@[simp] theorem not_posInf_le_fin (a : ℚ) : ¬ posInf ≤ fin a := by
  rw [le_def]; simp [ERat.ble]

@[simp] theorem negInf_lt_fin (a : ℚ) : negInf < fin a := rfl
@[simp] theorem fin_lt_posInf (a : ℚ) : fin a < posInf := rfl
@[simp] theorem negInf_lt_posInf : negInf < posInf := rfl
@[simp] theorem not_negInf_lt_negInf : ¬ (negInf : ERat) < negInf := by
  rw [lt_def]; simp [ERat.ble]
@[simp] theorem not_posInf_lt_posInf : ¬ (posInf : ERat) < posInf := by
  rw [lt_def]; simp [ERat.ble]

@[simp] theorem zero_lt_fin {b : ℚ} : (0 : ERat) < fin b ↔ 0 < b := by
  rw [zero_def, fin_lt_fin]

@[simp] theorem fin_lt_zero {a : ℚ} : fin a < (0 : ERat) ↔ a < 0 := by
  rw [zero_def, fin_lt_fin]

@[simp] theorem zero_le_fin {b : ℚ} : (0 : ERat) ≤ fin b ↔ 0 ≤ b := by
  rw [zero_def, fin_le_fin]

@[simp] theorem fin_le_zero {a : ℚ} : fin a ≤ (0 : ERat) ↔ a ≤ 0 := by
  rw [zero_def, fin_le_fin]

@[simp] theorem fin_eq_zero {a : ℚ} : (fin a = (0 : ERat)) ↔ a = 0 := by
  rw [zero_def]
  exact ⟨fun h => by cases h; rfl, fun h => by rw [h]⟩

@[simp] theorem zero_eq_fin {a : ℚ} : ((0 : ERat) = fin a) ↔ 0 = a := by
  rw [zero_def]
  exact ⟨fun h => by cases h; rfl, fun h => by rw [h]⟩

@[simp] theorem fin_add_zero (a : ℚ) : fin a + (0 : ERat) = fin a := by
  rw [zero_def, fin_add_fin, add_zero]

@[simp] theorem zero_add_fin (a : ℚ) : (0 : ERat) + fin a = fin a := by
  rw [zero_def, fin_add_fin, zero_add]

theorem total_le (a b : ERat) : a ≤ b ∨ b ≤ a := by
  cases a <;> cases b <;> simp
  exact le_total _ _

theorem lt_iff_not_le {a b : ERat} : a < b ↔ ¬ b ≤ a := by
  rw [lt_def, le_def]; simp

theorem le_of_lt {a b : ERat} (h : a < b) : a ≤ b := by
  rw [lt_def] at h
  rw [le_def]
  cases a <;> cases b <;> simp_all [ERat.ble] <;> linarith

theorem le_refl (a : ERat) : a ≤ a := by
  rw [le_def]; cases a <;> simp [ERat.ble]

theorem le_trans {a b c : ERat} (h1 : a ≤ b) (h2 : b ≤ c) : a ≤ c := by
  rw [le_def] at *
  cases a <;> cases b <;> cases c <;> simp_all [ERat.ble] <;> linarith

theorem lt_of_lt_of_le {a b c : ERat} (h1 : a < b) (h2 : b ≤ c) : a < c := by
  rw [lt_iff_not_le] at *
  exact fun h => h1 (le_trans h2 h)

theorem lt_of_le_of_lt {a b c : ERat} (h1 : a ≤ b) (h2 : b < c) : a < c := by
  rw [lt_iff_not_le] at *
  exact fun h => h2 (le_trans h h1)

theorem lt_trans {a b c : ERat} (h1 : a < b) (h2 : b < c) : a < c :=
  lt_of_le_of_lt (le_of_lt h1) h2

theorem eq_of_le_le {a b : ERat} (h1 : a ≤ b) (h2 : b ≤ a) : a = b := by
  rw [le_def] at *
  cases a <;> cases b <;> simp_all [ERat.ble]
  exact le_antisymm h1 h2

theorem not_lt {a b : ERat} : ¬ a < b ↔ b ≤ a := by
  rw [lt_def, le_def]; simp

theorem lt_irrefl (a : ERat) : ¬ a < a := by
  rw [not_lt]; exact le_refl a

theorem lt_or_ge (a b : ERat) : a < b ∨ b ≤ a := by
  by_cases h : a < b
  · exact Or.inl h
  · exact Or.inr (not_lt.mp h)

theorem ne_of_gt {a b : ERat} (h : a < b) : b ≠ a := by
  intro he; subst he; exact lt_irrefl _ h

theorem ne_of_lt {a b : ERat} (h : a < b) : a ≠ b := by
  intro he; subst he; exact lt_irrefl _ h

end ERat

/-- Compressed-column sparsity pattern: `[nrow, ncol, colptr[0..ncol], rowind[0..nnz]]`
exposed as fields (`sp[0]`, `sp[1]`, `sp+2`, `sp+2+ncol+1` in the source). -/
structure Sp where
  nrow : ℕ
  ncol : ℕ
  colind : ℕ → ℕ
  row : ℕ → ℕ

/-- Index list `[lo, hi)`, the range of a C loop `for (k=lo; k<hi; ++k)`. -/
def cRange (lo hi : ℕ) : List ℕ := List.range' lo (hi - lo)

/-- Pointwise update of a vector, the effect of an assignment `x[i] = v`. -/
def updF {α : Type} (x : ℕ → α) (i : ℕ) (v : α) : ℕ → α :=
  fun j => if j = i then v else x j

/-- Modelled from the spec: `casadi_fill(x, n, v)` writes `v` to `x[0..n)`. -/
def casadi_fill (x : ℕ → ERat) (n : ℕ) (v : ERat) : ℕ → ERat :=
  fun j => if j < n then v else x j

/-- Modelled from the spec: `casadi_copy(x, n, y)` copies `x[0..n)` onto `y`. -/
def casadi_copy (x : ℕ → ERat) (n : ℕ) (y : ℕ → ERat) : ℕ → ERat :=
  fun j => if j < n then x j else y j

/-- Modelled from the spec: `casadi_dot(n, x, y)` is the dense dot product
over the first `n` entries, accumulated in index order. -/
def casadi_dot (n : ℕ) (x y : ℕ → ERat) : ERat :=
  (List.range n).foldl (fun acc i => acc + x i * y i) 0

/-- Modelled from the spec: `casadi_axpy(n, a, x, y)` performs `y += a*x`
on the first `n` entries (dense). -/
def casadi_axpy (n : ℕ) (a : ERat) (x y : ℕ → ERat) : ℕ → ERat :=
  fun j => if j < n then y j + a * x j else y j

/-- Modelled from the spec: `casadi_scal(n, a, x)` performs `x *= a` on the
first `n` entries. -/
def casadi_scal (n : ℕ) (a : ERat) (x : ℕ → ERat) : ℕ → ERat :=
  fun j => if j < n then a * x j else x j

/-- Modelled from the spec: `casadi_mv(a, sp_a, x, y, tr)` sparse
matrix-vector accumulation: `y += A*x` (`tr = false`) or `y += A^T*x`
(`tr = true`), iterating columns and their nonzeros in order. -/
def casadi_mv (a : ℕ → ERat) (sp : Sp) (x y : ℕ → ERat) (tr : Bool) : ℕ → ERat :=
  (List.range sp.ncol).foldl
    (fun yc c =>
      (cRange (sp.colind c) (sp.colind (c+1))).foldl
        (fun yk k =>
          if tr then updF yk c (yk c + a k * x (sp.row k))
          else updF yk (sp.row k) (yk (sp.row k) + a k * x c))
        yc)
    y

/-- Modelled from the spec: `casadi_bilin(a, sp_a, x, y)` computes the
bilinear form `x^T A y` by column iteration. -/
def casadi_bilin (a : ℕ → ERat) (sp : Sp) (x y : ℕ → ERat) : ERat :=
  (List.range sp.ncol).foldl
    (fun acc c =>
      (cRange (sp.colind c) (sp.colind (c+1))).foldl
        (fun ac k => ac + x (sp.row k) * a k * y c)
        acc)
    0

/-- Column of `sp` that contains nonzero position `k`. -/
def spColOf (sp : Sp) (k : ℕ) : ℕ :=
  ((List.range sp.ncol).filter
    (fun c => decide (sp.colind c ≤ k) && decide (k < sp.colind (c+1)))).headD 0

/-- Position in column `c` of `sp` whose row index is `r`, if any. -/
def spFind (sp : Sp) (c r : ℕ) : Option ℕ :=
  ((cRange (sp.colind c) (sp.colind (c+1))).filter (fun k => sp.row k == r)).head?

/-- Modelled from the spec: `casadi_trans(x, sp_x, y, sp_y, iw)` writes into
`y` the nonzeros of the transpose of `(sp_x, x)` laid out on the transpose
pattern `sp_y`: the nonzero of `sp_y` at position `k` (in column `c`, row
`r`) receives the value of the source entry at column `r`, row `c`. -/
def casadi_trans (x : ℕ → ERat) (sp_x : Sp) (y : ℕ → ERat) (sp_y : Sp) : ℕ → ERat :=
  fun k =>
    if k < sp_y.colind sp_y.ncol then
      match spFind sp_x (sp_y.row k) (spColOf sp_y k) with
      | some kx => x kx
      | none => 0
    else y k

/-- Problem descriptor `casadi_qp_prob` (dimensions, tolerances, sparsity
patterns; the symbolic QR factors are not needed by the embedded routines). -/
structure QPProb where
  nx : ℕ
  na : ℕ
  nz : ℕ
  dmin : ERat
  inf : ERat
  du_to_pr : ERat
  sp_a : Sp
  sp_h : Sp
  sp_at : Sp
  sp_kkt : Sp

/-- Per-solve data `casadi_qp_data`.  The message buffer is omitted (pure
diagnostics); the QR factor arrays are omitted because every embedded
routine accesses the factorization only through the external solver. -/
structure QPData where
  prob : QPProb
  f : ERat
  nz_a : ℕ → ERat
  nz_h : ℕ → ERat
  g : ℕ → ERat
  z : ℕ → ERat
  lbz : ℕ → ERat
  ubz : ℕ → ERat
  infeas : ℕ → ERat
  tinfeas : ℕ → ERat
  lam : ℕ → ERat
  w : ℕ → ERat
  dz : ℕ → ERat
  dlam : ℕ → ERat
  iw : ℕ → Int
  neverzero : ℕ → Bool
  neverupper : ℕ → Bool
  neverlower : ℕ → Bool
  nz_at : ℕ → ERat
  tau : ERat
  sing : Int
  pr : ERat
  du : ERat
  ipr : Int
  idu : Int

/-- Modelled from the spec: the sparse QR engine (`casadi_qr`,
`casadi_qr_solve`, `sqrt` from the C math library) is code of the
repository outside `src/`.  `qr_solve b tr` is the in-place solve of the
factorized KKT system (or its transpose); `sqrt` is the square root.
The theorems below hold for every choice of these functions. -/
structure QPExt where
  qr_solve : (ℕ → ERat) → Bool → (ℕ → ERat)
  sqrt : ERat → ERat

/-- Threshold `1e-12` of the source. -/
def eps12 : ERat := ERat.fin (1 / 10 ^ 12)

/-- Threshold `1e-16` of the source. -/
def eps16 : ERat := ERat.fin (1 / 10 ^ 16)

/-- The initial active-set correction of `casadi_qp_reset` (source lines
139-146) applied to one row with bounds `lb, ub`, primal value `z` and
incoming multiplier `lam`. -/
def resetLam (dmin lb ub z lam : ERat) : ERat :=
  if lb == ub && lam == 0 then
    (if ub.isinf || decide (z - lb ≤ ub - z) then -dmin else dmin)
  else if ub.isinf && decide (0 < lam) then
    (if lb == ub then -dmin else 0)
  else if lb.isinf && decide (lam < 0) then
    (if lb == ub then dmin else 0)
  else lam

/-- Loop body of `casadi_qp_reset` (source lines 132-147): per row, compute
the permitted-sign classification, fail if all three flags hold, otherwise
correct the initial `lam` if required. -/
def casadi_qp_reset_loop (d : QPData) : List ℕ → Option QPData
  | [] => some d
  | i :: rest =>
    let p := d.prob
    let nzi : Bool := d.lbz i == d.ubz i
    let nui : Bool := (d.ubz i).isinf
    let nli : Bool := (d.lbz i).isinf
    let d1 := { d with neverzero := updF d.neverzero i nzi,
                       neverupper := updF d.neverupper i nui,
                       neverlower := updF d.neverlower i nli }
    if nzi && nui && nli then none
    else
      casadi_qp_reset_loop
        { d1 with lam := updF d1.lam i (resetLam p.dmin (d.lbz i) (d.ubz i) (d.z i) (d.lam i)) }
        rest

/-- `casadi_qp_reset` (source lines 122-151): reset `tau` and `sing`, derive
the sign classification and correct `lam`, then transpose A.  Returns `none`
for the nonzero (infeasible-by-bounds) status, `some` of the updated data
for the zero (ok) status. -/
def casadi_qp_reset (d : QPData) : Option QPData :=
  let p := d.prob
  match casadi_qp_reset_loop { d with tau := 0, sing := 0 } (List.range p.nz) with
  | none => none
  | some d' => some { d' with nz_at := casadi_trans d'.nz_a p.sp_a d'.nz_at p.sp_at }

/-- `casadi_qp_pr` (source lines 154-170): largest bound violation and its
index. -/
def prFold (d : QPData) : ERat × Int :=
  (List.range d.prob.nz).foldl
    (fun (s : ERat × Int) i =>
      if d.z i > d.ubz i + s.1 then (d.z i - d.ubz i, (i : Int))
      else if d.z i < d.lbz i - s.1 then (d.lbz i - d.z i, (i : Int))
      else s)
    (0, -1)

def casadi_qp_pr (d : QPData) : QPData :=
  { d with pr := (prFold d).1, ipr := (prFold d).2 }

/-- `casadi_qp_du` (source lines 173-189): largest dual infeasibility and
its index. -/
def duFold (d : QPData) : ERat × Int :=
  (List.range d.prob.nx).foldl
    (fun (s : ERat × Int) i =>
      if d.infeas i > s.1 then (d.infeas i, (i : Int))
      else if d.infeas i < -s.1 then (-(d.infeas i), (i : Int))
      else s)
    (0, -1)

def casadi_qp_du (d : QPData) : QPData :=
  { d with du := (duFold d).1, idu := (duFold d).2 }

/-- Sign snapshot of one multiplier (`take_step`, source line 621). -/
def stepSign (lam : ERat) : Int :=
  if lam > 0 then 1 else if lam < 0 then -1 else 0

/-- Updated sign of one row after the step (`take_step`, source lines
626-630): a sign change through zero is accepted only for `neverzero`
rows. -/
def stepIw (nzr : Bool) (lam0 lam1 : ERat) : Int :=
  if nzr && (if stepSign lam0 < 0 then decide (lam1 > 0) else decide (lam1 < 0))
  then -(stepSign lam0) else stepSign lam0

/-- Final multiplier of one row after the step (`take_step`, source lines
631-636): clamp to the enforced sign. -/
def stepLam (dmin : ERat) (nzr : Bool) (lam0 lam1 : ERat) : ERat :=
  if stepIw nzr lam0 lam1 = -1 then ERat.fmin lam1 (-dmin)
  else if stepIw nzr lam0 lam1 = 1 then ERat.fmax lam1 dmin
  else 0

/-- `casadi_qp_take_step` (source lines 615-638): snapshot signs in `iw`,
take the primal-dual step, then restore the sign discipline, allowing sign
flips through zero only for `neverzero` rows. -/
def casadi_qp_take_step (d : QPData) : QPData :=
  let p := d.prob
  let z' := casadi_axpy p.nz d.tau d.dz d.z
  let lam1 := casadi_axpy p.nz d.tau d.dlam d.lam
  { d with z := z',
           lam := fun i => if i < p.nz then stepLam p.dmin (d.neverzero i) (d.lam i) (lam1 i)
                           else lam1 i,
           iw := fun i => if i < p.nz then stepIw (d.neverzero i) (d.lam i) (lam1 i)
                          else d.iw i }

namespace ERat

theorem neg_lt_zero_of_pos {a : ERat} (h : (0 : ERat) < a) : -a < 0 := by
  cases a with
  | negInf => simp at h
  | posInf => exact negInf_lt_fin 0
  | fin q =>
    have hq : (0 : ℚ) < q := by
      have := fin_lt_fin.mp h
      simpa using this
    show fin (-q) < fin 0
    rw [fin_lt_fin]
    linarith

theorem fmin_le_right (a b : ERat) : fmin a b ≤ b := by
  unfold fmin
  by_cases h : a ≤ b
  · simp [h]
  · simp [h, le_refl]

theorem le_fmax_right (a b : ERat) : b ≤ fmax a b := by
  unfold fmax
  by_cases h : a ≤ b
  · simp [h, le_refl]
  · simp [h]
    rcases total_le a b with h' | h'
    · exact absurd h' h
    · exact h'

theorem le_fmax_left (a b : ERat) : a ≤ fmax a b := by
  unfold fmax
  by_cases h : a ≤ b
  · simp [h]
  · simp [h, le_refl]

theorem fmin_le_left (a b : ERat) : fmin a b ≤ a := by
  unfold fmin
  by_cases h : a ≤ b
  · simp [h, le_refl]
  · simp [h]
    rcases total_le a b with h' | h'
    · exact absurd h' h
    · exact h'

end ERat

/-- Sign discipline of the multipliers with respect to the permitted-sign
classification (spec, Testable properties): `neverzero` rows have nonzero
multiplier, `neverupper` rows nonpositive, `neverlower` rows nonnegative. -/
def SignOK (d : QPData) : Prop :=
  ∀ i, i < d.prob.nz →
    (d.neverzero i = true → d.lam i ≠ 0) ∧
    (d.neverupper i = true → d.lam i ≤ 0) ∧
    (d.neverlower i = true → (0 : ERat) ≤ d.lam i)

/-- The classification flags agree with the bounds, exactly as
`casadi_qp_reset` computes them. -/
def FlagsFromBounds (d : QPData) : Prop :=
  ∀ i, i < d.prob.nz →
    d.neverzero i = (d.lbz i == d.ubz i) ∧
    d.neverupper i = (d.ubz i).isinf ∧
    d.neverlower i = (d.lbz i).isinf

/-- No row carries all three flags (what a successful reset guarantees). -/
def FlagsExcl (d : QPData) : Prop :=
  ∀ i, i < d.prob.nz →
    ¬(d.neverzero i = true ∧ d.neverupper i = true ∧ d.neverlower i = true)

/-- A row on which `casadi_qp_reset` fails. -/
def badRow (d : QPData) (i : ℕ) : Prop :=
  d.lbz i = d.ubz i ∧ (d.ubz i).isinf = true ∧ (d.lbz i).isinf = true

instance (d : QPData) (i : ℕ) : Decidable (badRow d i) := by
  unfold badRow; infer_instance

theorem reset_loop_none_iff (l : List ℕ) (d : QPData) :
    casadi_qp_reset_loop d l = none ↔ ∃ i ∈ l, badRow d i := by
  induction l generalizing d with
  | nil => simp [casadi_qp_reset_loop]
  | cons i rest ih =>
    show (if _ then _ else _) = none ↔ _
    by_cases hb : (d.lbz i == d.ubz i) && (d.ubz i).isinf && (d.lbz i).isinf
    · simp only [hb, if_pos]
      constructor
      · intro _
        refine ⟨i, List.mem_cons_self i rest, ?_⟩
        simp only [Bool.and_eq_true, beq_iff_eq] at hb
        exact ⟨hb.1.1, hb.1.2, hb.2⟩
      · intro _; trivial
    · simp only [hb, if_neg, Bool.not_eq_true]
      rw [ih]
      constructor
      · rintro ⟨j, hj, hbad⟩
        exact ⟨j, List.mem_cons_of_mem _ hj, hbad⟩
      · rintro ⟨j, hj, hbad⟩
        rcases List.mem_cons.mp hj with rfl | hj'
        · exfalso
          apply hb
          rcases hbad with ⟨h1, h2, h3⟩
          simp [h1, h2, h3]
        · exact ⟨j, hj', hbad⟩

theorem reset_none_iff (d : QPData) :
    casadi_qp_reset d = none ↔ ∃ i ∈ List.range d.prob.nz, badRow d i := by
  have key : casadi_qp_reset_loop { d with tau := 0, sing := 0 } (List.range d.prob.nz) = none
      ↔ ∃ i ∈ List.range d.prob.nz, badRow d i :=
    reset_loop_none_iff (List.range d.prob.nz) { d with tau := 0, sing := 0 }
  unfold casadi_qp_reset
  dsimp only
  rcases h : casadi_qp_reset_loop { d with tau := 0, sing := 0 } (List.range d.prob.nz) with _ | d'
  · rw [h] at key
    exact key
  · rw [h] at key
    constructor
    · intro hc; cases hc
    · intro hex; cases key.mpr hex

theorem reset_loop_frame (l : List ℕ) (d d' : QPData)
    (h : casadi_qp_reset_loop d l = some d') :
    d'.prob = d.prob ∧ d'.z = d.z ∧ d'.lbz = d.lbz ∧ d'.ubz = d.ubz ∧
    ∀ j, j ∉ l →
      d'.lam j = d.lam j ∧ d'.neverzero j = d.neverzero j ∧
      d'.neverupper j = d.neverupper j ∧ d'.neverlower j = d.neverlower j := by
  induction l generalizing d with
  | nil =>
    cases h
    exact ⟨rfl, rfl, rfl, rfl, fun j _ => ⟨rfl, rfl, rfl, rfl⟩⟩
  | cons i rest ih =>
    unfold casadi_qp_reset_loop at h
    dsimp only at h
    by_cases hb : (d.lbz i == d.ubz i) && (d.ubz i).isinf && (d.lbz i).isinf
    · rw [if_pos hb] at h; cases h
    · rw [if_neg hb] at h
      obtain ⟨hp, hz, hlb, hub, hrest⟩ := ih _ h
      refine ⟨hp, hz, hlb, hub, fun j hj => ?_⟩
      have hji : j ≠ i := fun he => hj (he ▸ List.mem_cons_self i rest)
      have hjr : j ∉ rest := fun hm => hj (List.mem_cons_of_mem _ hm)
      obtain ⟨h1, h2, h3, h4⟩ := hrest j hjr
      refine ⟨?_, ?_, ?_, ?_⟩ <;>
        simp [h1, h2, h3, h4, updF, hji]


theorem resetLam_post (dmin lb ub z lam : ERat) (hdmin : (0 : ERat) < dmin)
    (hnb : ¬ (lb = ub ∧ ub.isinf = true ∧ lb.isinf = true)) :
    ((lb == ub) = true → resetLam dmin lb ub z lam ≠ 0) ∧
    (ub.isinf = true → resetLam dmin lb ub z lam ≤ 0) ∧
    (lb.isinf = true → (0 : ERat) ≤ resetLam dmin lb ub z lam) := by
  have hmd : -dmin < 0 := ERat.neg_lt_zero_of_pos hdmin
  have hmd' : -dmin ≤ (0 : ERat) := ERat.le_of_lt hmd
  unfold resetLam
  refine ⟨?_, ?_, ?_⟩
  · intro hzz
    have heq : lb = ub := by simpa using hzz
    have hu0 : ub.isinf = false := by
      rcases Bool.eq_false_or_eq_true ub.isinf with hh | hh
      · exact absurd ⟨heq, hh, heq ▸ hh⟩ hnb
      · exact hh
    have hl0 : lb.isinf = false := by
      rcases Bool.eq_false_or_eq_true lb.isinf with hh | hh
      · exact absurd ⟨heq, heq ▸ hh, hh⟩ hnb
      · exact hh
    by_cases h0 : (lam == (0 : ERat)) = true
    · rw [if_pos (by simp [hzz, h0])]
      by_cases hc : (ub.isinf || decide (z - lb ≤ ub - z)) = true
      · rw [if_pos hc]; exact ERat.ne_of_lt hmd
      · rw [if_neg hc]; exact ERat.ne_of_gt hdmin
    · rw [if_neg (by simp [h0])]
      rw [if_neg (by simp [hu0])]
      rw [if_neg (by simp [hl0])]
      simpa using h0
  · intro hu
    have hne : (lb == ub) = false := by
      rcases Bool.eq_false_or_eq_true (lb == ub) with hh | hh
      · have heq : lb = ub := by simpa using hh
        exact absurd ⟨heq, hu, heq ▸ hu⟩ hnb
      · exact hh
    rw [if_neg (by simp [hne])]
    by_cases hp : decide ((0 : ERat) < lam) = true
    · rw [if_pos (by simp [hu, hp])]
      rw [if_neg (by simp [hne])]
      exact ERat.le_refl 0
    · rw [if_neg (by simp [hp])]
      by_cases hc : (lb.isinf && decide (lam < 0)) = true
      · rw [if_pos hc]
        rw [if_neg (by simp [hne])]
        exact ERat.le_refl 0
      · rw [if_neg hc]
        have : ¬ (0 : ERat) < lam := by simpa using hp
        exact ERat.not_lt.mp this
  · intro hl
    have hne : (lb == ub) = false := by
      rcases Bool.eq_false_or_eq_true (lb == ub) with hh | hh
      · have heq : lb = ub := by simpa using hh
        exact absurd ⟨heq, heq ▸ hl, hl⟩ hnb
      · exact hh
    rw [if_neg (by simp [hne])]
    by_cases hp : (ub.isinf && decide ((0 : ERat) < lam)) = true
    · rw [if_pos hp]
      rw [if_neg (by simp [hne])]
      exact ERat.le_refl 0
    · rw [if_neg hp]
      by_cases hc : decide (lam < (0 : ERat)) = true
      · rw [if_pos (by simp [hl, hc])]
        rw [if_neg (by simp [hne])]
        exact ERat.le_refl 0
      · rw [if_neg (by simp [hc])]
        have : ¬ lam < (0 : ERat) := by simpa using hc
        exact ERat.not_lt.mp this

/-- What a successful reset establishes at each processed row: flags derived
from the bounds, not all three set, and the corrected multiplier obeying the
sign discipline. -/
theorem reset_loop_post (l : List ℕ) (d d' : QPData)
    (hnd : l.Nodup) (hdmin : (0 : ERat) < d.prob.dmin)
    (h : casadi_qp_reset_loop d l = some d') :
    ∀ i ∈ l,
      d'.neverzero i = (d.lbz i == d.ubz i) ∧
      d'.neverupper i = (d.ubz i).isinf ∧
      d'.neverlower i = (d.lbz i).isinf ∧
      ¬ badRow d i ∧
      (d'.neverzero i = true → d'.lam i ≠ 0) ∧
      (d'.neverupper i = true → d'.lam i ≤ 0) ∧
      (d'.neverlower i = true → (0 : ERat) ≤ d'.lam i) := by
  induction l generalizing d with
  | nil => intro i hi; cases hi
  | cons j rest ih =>
    unfold casadi_qp_reset_loop at h
    dsimp only at h
    by_cases hb : (d.lbz j == d.ubz j) && (d.ubz j).isinf && (d.lbz j).isinf
    · rw [if_pos hb] at h; cases h
    · rw [if_neg hb] at h
      have hnd' := (List.nodup_cons.mp hnd).2
      have hjn : j ∉ rest := (List.nodup_cons.mp hnd).1
      intro i hi
      rcases List.mem_cons.mp hi with rfl | hir
      · obtain ⟨hp, hz, hlb, hub, hfr⟩ := reset_loop_frame _ _ _ h
        obtain ⟨hl, h1, h2, h3⟩ := hfr i hjn
        have hnz : d'.neverzero i = (d.lbz i == d.ubz i) := by
          rw [h1]; simp [updF]
        have hnu : d'.neverupper i = (d.ubz i).isinf := by
          rw [h2]; simp [updF]
        have hnl : d'.neverlower i = (d.lbz i).isinf := by
          rw [h3]; simp [updF]
        have hnb : ¬ badRow d i := by
          intro hbad
          apply hb
          rcases hbad with ⟨e1, e2, e3⟩
          simp [e1, e2, e3]
        have hlam : d'.lam i = resetLam d.prob.dmin (d.lbz i) (d.ubz i) (d.z i) (d.lam i) := by
          rw [hl]; simp [updF]
        have hpost := resetLam_post d.prob.dmin (d.lbz i) (d.ubz i) (d.z i) (d.lam i) hdmin
          (by intro hh; exact hnb hh)
        refine ⟨hnz, hnu, hnl, hnb, ?_, ?_, ?_⟩
        · intro hq; rw [hlam]; exact hpost.1 (by rw [← hnz]; exact hq)
        · intro hq; rw [hlam]; exact hpost.2.1 (by rw [← hnu]; exact hq)
        · intro hq; rw [hlam]; exact hpost.2.2 (by rw [← hnl]; exact hq)
      · have hstep := ih _ hnd' (by simpa using hdmin) h i hir
        simpa using hstep

theorem eq_zero_of_not_lt_gt {a : ERat} (h1 : ¬ a < 0) (h2 : ¬ (0 : ERat) < a) : a = 0 :=
  ERat.eq_of_le_le (ERat.not_lt.mp h2) (ERat.not_lt.mp h1)

theorem stepSign_pos {lam0 : ERat} (h : (0 : ERat) < lam0) : stepSign lam0 = 1 := by
  unfold stepSign
  rw [if_pos (show lam0 > 0 from h)]

theorem stepSign_neg {lam0 : ERat} (h : lam0 < 0) : stepSign lam0 = -1 := by
  unfold stepSign
  have h2 : ¬ (lam0 > 0) := by
    intro hgt
    exact ERat.lt_irrefl 0 (ERat.lt_trans hgt h)
  rw [if_neg h2, if_pos h]

theorem stepSign_zero {lam0 : ERat} (h1 : ¬ (0 : ERat) < lam0) (h2 : ¬ lam0 < 0) :
    stepSign lam0 = 0 := by
  unfold stepSign
  rw [if_neg (show ¬ (lam0 > 0) from h1), if_neg h2]

theorem stepIw_false (lam0 lam1 : ERat) : stepIw false lam0 lam1 = stepSign lam0 := by
  unfold stepIw
  simp

theorem stepLam_post (dmin lam0 lam1 : ERat) (hdmin : (0 : ERat) < dmin) (nzr : Bool) :
    (nzr = true → lam0 ≠ 0 → stepLam dmin nzr lam0 lam1 ≠ 0) ∧
    (nzr = false → lam0 ≤ 0 → stepLam dmin nzr lam0 lam1 ≤ 0) ∧
    (nzr = false → (0 : ERat) ≤ lam0 → (0 : ERat) ≤ stepLam dmin nzr lam0 lam1) := by
  have hmd : -dmin < 0 := ERat.neg_lt_zero_of_pos hdmin
  have hneg : ∀ x : ERat, ERat.fmin x (-dmin) < 0 := fun x =>
    ERat.lt_of_le_of_lt (ERat.fmin_le_right x (-dmin)) hmd
  have hpos : ∀ x : ERat, (0 : ERat) < ERat.fmax x dmin := fun x =>
    ERat.lt_of_lt_of_le hdmin (ERat.le_fmax_right x dmin)
  refine ⟨?_, ?_, ?_⟩
  · intro hz hl0
    subst hz
    rcases ERat.lt_or_ge 0 lam0 with hgt | hge
    · have hsgn := stepSign_pos hgt
      by_cases hc : lam1 < 0
      · have hiw : stepIw true lam0 lam1 = -1 := by
          unfold stepIw
          rw [hsgn]
          norm_num [hc]
        unfold stepLam
        rw [hiw]
        norm_num
        exact ERat.ne_of_lt (hneg lam1)
      · have hiw : stepIw true lam0 lam1 = 1 := by
          unfold stepIw
          rw [hsgn]
          norm_num [hc]
        unfold stepLam
        rw [hiw]
        norm_num
        exact ERat.ne_of_gt (hpos lam1)
    · rcases ERat.lt_or_ge lam0 0 with hlt | hge'
      · have hsgn := stepSign_neg hlt
        by_cases hc : lam1 > 0
        · have hiw : stepIw true lam0 lam1 = 1 := by
            unfold stepIw
            rw [hsgn]
            norm_num [hc]
          unfold stepLam
          rw [hiw]
          norm_num
          exact ERat.ne_of_gt (hpos lam1)
        · have hiw : stepIw true lam0 lam1 = -1 := by
            unfold stepIw
            rw [hsgn]
            norm_num [hc]
          unfold stepLam
          rw [hiw]
          norm_num
          exact ERat.ne_of_lt (hneg lam1)
      · exact absurd (ERat.eq_of_le_le hge' hge).symm hl0
  · intro hz hl0
    subst hz
    have hngt : ¬ (0 : ERat) < lam0 := ERat.not_lt.mpr hl0
    by_cases hlt : lam0 < 0
    · have hiw : stepIw false lam0 lam1 = -1 := by
        rw [stepIw_false, stepSign_neg hlt]
      unfold stepLam
      rw [hiw]
      norm_num
      exact ERat.le_of_lt (hneg lam1)
    · have hiw : stepIw false lam0 lam1 = 0 := by
        rw [stepIw_false, stepSign_zero hngt hlt]
      unfold stepLam
      rw [hiw]
      norm_num
      exact ERat.le_refl 0
  · intro hz hl0
    subst hz
    have hnlt : ¬ lam0 < 0 := ERat.not_lt.mpr hl0
    by_cases hgt : (0 : ERat) < lam0
    · have hiw : stepIw false lam0 lam1 = 1 := by
        rw [stepIw_false, stepSign_pos hgt]
      unfold stepLam
      rw [hiw]
      norm_num
      exact ERat.le_of_lt (hpos lam1)
    · have hiw : stepIw false lam0 lam1 = 0 := by
        rw [stepIw_false, stepSign_zero hgt hnlt]
      unfold stepLam
      rw [hiw]
      norm_num
      exact ERat.le_refl 0

/-- A successful `casadi_qp_reset` establishes the sign discipline and the
flag consistency facts. -/
theorem reset_establishes (d d' : QPData) (hdmin : (0 : ERat) < d.prob.dmin)
    (h : casadi_qp_reset d = some d') :
    SignOK d' ∧ FlagsFromBounds d' ∧ FlagsExcl d' := by
  unfold casadi_qp_reset at h
  dsimp only at h
  rcases hl : casadi_qp_reset_loop { d with tau := 0, sing := 0 } (List.range d.prob.nz)
    with _ | d2
  · rw [hl] at h; cases h
  · rw [hl] at h
    cases h
    obtain ⟨hp, hz, hlb, hub, _⟩ := reset_loop_frame _ _ _ hl
    have hpost := reset_loop_post (List.range d.prob.nz) _ d2 (List.nodup_range _)
      (by simpa using hdmin) hl
    have hnz2 : d2.prob.nz = d.prob.nz := by rw [hp]
    refine ⟨?_, ?_, ?_⟩
    · intro i hi
      have hi' : i ∈ List.range d.prob.nz := List.mem_range.mpr (by
        simpa [hnz2] using hi)
      obtain ⟨_, _, _, _, q1, q2, q3⟩ := hpost i hi'
      exact ⟨q1, q2, q3⟩
    · intro i hi
      have hi' : i ∈ List.range d.prob.nz := List.mem_range.mpr (by
        simpa [hnz2] using hi)
      obtain ⟨q1, q2, q3, _, _, _, _⟩ := hpost i hi'
      refine ⟨?_, ?_, ?_⟩
      · rw [q1, hlb, hub]
      · rw [q2, hub]
      · rw [q3, hlb]
    · intro i hi
      have hi' : i ∈ List.range d.prob.nz := List.mem_range.mpr (by
        simpa [hnz2] using hi)
      obtain ⟨q1, q2, q3, hnb, _, _, _⟩ := hpost i hi'
      rintro ⟨e1, e2, e3⟩
      apply hnb
      rw [q1] at e1
      rw [q2] at e2
      rw [q3] at e3
      exact ⟨by simpa using e1, e2, e3⟩

/-- `casadi_qp_take_step` preserves the sign discipline when the flags are
consistent with the bounds and no row carries all three flags. -/
theorem take_step_preserves (d : QPData) (hdmin : (0 : ERat) < d.prob.dmin)
    (hsign : SignOK d) (hflags : FlagsFromBounds d) (hexcl : FlagsExcl d) :
    SignOK (casadi_qp_take_step d) := by
  intro i hi
  have hi' : i < d.prob.nz := hi
  obtain ⟨hs1, hs2, hs3⟩ := hsign i hi'
  obtain ⟨hf1, hf2, hf3⟩ := hflags i hi'
  have hne := hexcl i hi'
  have pexu : d.neverupper i = true → d.neverzero i = false := by
    intro h1
    rcases Bool.eq_false_or_eq_true (d.neverzero i) with hh | hh
    · exfalso
      apply hne
      refine ⟨hh, h1, ?_⟩
      have heq : d.lbz i = d.ubz i := by
        have := hf1
        rw [hh] at this
        simpa using this.symm
      rw [hf3, heq, ← hf2]
      exact h1
    · exact hh
  have pexl : d.neverlower i = true → d.neverzero i = false := by
    intro h1
    rcases Bool.eq_false_or_eq_true (d.neverzero i) with hh | hh
    · exfalso
      apply hne
      refine ⟨hh, ?_, h1⟩
      have heq : d.lbz i = d.ubz i := by
        have := hf1
        rw [hh] at this
        simpa using this.symm
      rw [hf2, ← heq, ← hf3]
      exact h1
    · exact hh
  have hpost := stepLam_post d.prob.dmin (d.lam i)
    (casadi_axpy d.prob.nz d.tau d.dlam d.lam i) hdmin (d.neverzero i)
  have hlam : (casadi_qp_take_step d).lam i
      = stepLam d.prob.dmin (d.neverzero i) (d.lam i)
          (casadi_axpy d.prob.nz d.tau d.dlam d.lam i) := by
    unfold casadi_qp_take_step
    dsimp only
    rw [if_pos hi']
  refine ⟨?_, ?_, ?_⟩
  · intro hq
    rw [hlam]
    exact hpost.1 hq (hs1 hq)
  · intro hq
    rw [hlam]
    exact hpost.2.1 (pexu hq) (hs2 hq)
  · intro hq
    rw [hlam]
    exact hpost.2.2 (pexl hq) (hs3 hq)

/-- `casadi_qp_kkt_vector` (source lines 317-340): difference column used
for the linear-dependence test when flipping row `i`.  `kkt_i` is the
caller's output buffer. -/
def casadi_qp_kkt_vector (d : QPData) (kkt_i : ℕ → ERat) (i : ℕ) : ℕ → ERat :=
  let p := d.prob
  let k0 := casadi_fill kkt_i p.nz 0
  let k1 :=
    if i < p.nx then
      let kh := (cRange (p.sp_h.colind i) (p.sp_h.colind (i+1))).foldl
        (fun acc k => updF acc (p.sp_h.row k) (d.nz_h k)) k0
      (cRange (p.sp_a.colind i) (p.sp_a.colind (i+1))).foldl
        (fun acc k => updF acc (p.nx + p.sp_a.row k) (d.nz_a k)) kh
    else
      (cRange (p.sp_at.colind (i - p.nx)) (p.sp_at.colind (i - p.nx + 1))).foldl
        (fun acc k => updF acc (p.sp_at.row k) (-(d.nz_at k))) k0
  updF k1 i (k1 i - 1)

/-- `casadi_qp_kkt_column` (source lines 343-373): column `i` of the KKT
matrix for an assumed activity `sign` (`0` inactive, nonzero active). -/
def casadi_qp_kkt_column (d : QPData) (kkt_i : ℕ → ERat) (i : ℕ) (sign : Int) : ℕ → ERat :=
  let p := d.prob
  let k0 := casadi_fill kkt_i p.nz 0
  if i < p.nx then
    if sign = 0 then
      let kh := (cRange (p.sp_h.colind i) (p.sp_h.colind (i+1))).foldl
        (fun acc k => updF acc (p.sp_h.row k) (d.nz_h k)) k0
      (cRange (p.sp_a.colind i) (p.sp_a.colind (i+1))).foldl
        (fun acc k => updF acc (p.nx + p.sp_a.row k) (d.nz_a k)) kh
    else updF k0 i 1
  else
    if sign = 0 then updF k0 i (-1)
    else
      (cRange (p.sp_at.colind (i - p.nx)) (p.sp_at.colind (i - p.nx + 1))).foldl
        (fun acc k => updF acc (p.sp_at.row k) (d.nz_at k)) k0

/-- `casadi_qp_kkt_dot` (source lines 377-407): scalar product of `v` with
the KKT column `i` of assumed activity `sign`. -/
def casadi_qp_kkt_dot (d : QPData) (v : ℕ → ERat) (i : ℕ) (sign : Int) : ERat :=
  let p := d.prob
  if i < p.nx then
    if sign = 0 then
      let r1 := (cRange (p.sp_h.colind i) (p.sp_h.colind (i+1))).foldl
        (fun r k => r + v (p.sp_h.row k) * d.nz_h k) 0
      (cRange (p.sp_a.colind i) (p.sp_a.colind (i+1))).foldl
        (fun r k => r + v (p.nx + p.sp_a.row k) * d.nz_a k) r1
    else v i
  else
    if sign = 0 then -(v i)
    else
      (cRange (p.sp_at.colind (i - p.nx)) (p.sp_at.colind (i - p.nx + 1))).foldl
        (fun r k => r + v (p.sp_at.row k) * d.nz_at k) 0

/-- `casadi_qp_kkt_dot2` (source lines 411-433): scalar product of `v` with
the difference column of row `i`, computed as diagonal part minus (or plus)
the sparse part. -/
def casadi_qp_kkt_dot2 (d : QPData) (v : ℕ → ERat) (i : ℕ) : ERat :=
  let p := d.prob
  if i < p.nx then
    let r1 := (cRange (p.sp_h.colind i) (p.sp_h.colind (i+1))).foldl
      (fun r k => r - v (p.sp_h.row k) * d.nz_h k) (v i)
    (cRange (p.sp_a.colind i) (p.sp_a.colind (i+1))).foldl
      (fun r k => r - v (p.nx + p.sp_a.row k) * d.nz_a k) r1
  else
    (cRange (p.sp_at.colind (i - p.nx)) (p.sp_at.colind (i - p.nx + 1))).foldl
      (fun r k => r + v (p.sp_at.row k) * d.nz_at k) (v i)

namespace ERat

theorem sub_zero_self (x : ERat) : x - 0 = x := by
  show x + -(0 : ERat) = x
  cases x with
  | negInf => rfl
  | posInf => rfl
  | fin q =>
    show fin (q + -(0 : ℚ)) = fin q
    norm_num

theorem zero_sub_self (x : ERat) : (0 : ERat) - x = -x := by
  show (0 : ERat) + -x = -x
  cases x with
  | negInf => rfl
  | posInf => rfl
  | fin q =>
    show fin ((0 : ℚ) + -q) = fin (-q)
    norm_num

theorem add_comm' (x y : ERat) : x + y = y + x := by
  cases x <;> cases y <;> first
    | rfl
    | exact congrArg fin (add_comm _ _)

theorem sub_comm_neg (x y : ERat) : -x - y = -y - x := by
  show -x + -y = -y + -x
  exact add_comm' _ _

end ERat

theorem foldl_updF_congr (l : List ℕ) (f : ℕ → ℕ) (g : ℕ → ERat) (b1 b2 : ℕ → ERat)
    (j : ℕ) (hb : b1 j = b2 j) :
    (l.foldl (fun acc k => updF acc (f k) (g k)) b1) j
      = (l.foldl (fun acc k => updF acc (f k) (g k)) b2) j := by
  induction l generalizing b1 b2 with
  | nil => exact hb
  | cons k rest ih =>
    apply ih
    simp only [updF]
    by_cases h : j = f k <;> simp [h, hb]

theorem foldl_updF_neg (l : List ℕ) (f : ℕ → ℕ) (g : ℕ → ERat) (b1 b2 : ℕ → ERat)
    (j : ℕ) (hb : b1 j = -(b2 j)) :
    (l.foldl (fun acc k => updF acc (f k) (-(g k))) b1) j
      = -((l.foldl (fun acc k => updF acc (f k) (g k)) b2) j) := by
  induction l generalizing b1 b2 with
  | nil => exact hb
  | cons k rest ih =>
    apply ih
    simp only [updF]
    by_cases h : j = f k <;> simp [h, hb]

/-- All-empty sparsity pattern with the given dimensions. -/
def spEmpty (nrow ncol : ℕ) : Sp := ⟨nrow, ncol, fun _ => 0, fun _ => 0⟩

/-- A 1-variable, 0-constraint problem descriptor with empty H and A. -/
def prob1 : QPProb :=
  { nx := 1, na := 0, nz := 1, dmin := 1, inf := ERat.posInf, du_to_pr := 1,
    sp_a := spEmpty 0 1, sp_h := spEmpty 1 1, sp_at := spEmpty 1 0,
    sp_kkt := spEmpty 1 1 }

/-- Baseline all-zero per-solve data for a problem descriptor. -/
def mkData (p : QPProb) : QPData :=
  { prob := p, f := 0, nz_a := fun _ => 0, nz_h := fun _ => 0, g := fun _ => 0,
    z := fun _ => 0, lbz := fun _ => 0, ubz := fun _ => 0,
    infeas := fun _ => 0, tinfeas := fun _ => 0, lam := fun _ => 0,
    w := fun _ => 0, dz := fun _ => 0, dlam := fun _ => 0, iw := fun _ => 0,
    neverzero := fun _ => false, neverupper := fun _ => false,
    neverlower := fun _ => false, nz_at := fun _ => 0, tau := 0, sing := 0,
    pr := 0, du := 0, ipr := -1, idu := -1 }

/-- C4 (amended): for every row `i` and active sign `s ≠ 0`, the vector
written by `casadi_qp_kkt_vector` equals the "make `i` inactive" column
minus the "make `i` active" column of the KKT matrix — the negative of the
difference stated in the claim. -/
theorem claim4_kkt_vector_diff (d : QPData) (out out2 out3 : ℕ → ERat) (i : ℕ) (s : Int)
    (hi : i < d.prob.nz) (hs : s ≠ 0)
    (j : ℕ) (hj : j < d.prob.nz) :
    casadi_qp_kkt_vector d out i j
      = casadi_qp_kkt_column d out2 i 0 j - casadi_qp_kkt_column d out3 i s j := by
  have hb0 : ∀ x : ℕ → ERat, casadi_fill x d.prob.nz 0 j = 0 := by
    intro x; simp [casadi_fill, hj]
  unfold casadi_qp_kkt_vector casadi_qp_kkt_column
  dsimp only
  by_cases hix : i < d.prob.nx
  · rw [if_pos hix, if_pos hix, if_pos hix, if_pos (rfl : (0 : Int) = 0), if_neg hs]
    have hcongr : ∀ b1 b2 : ℕ → ERat, b1 j = b2 j →
        ((cRange (d.prob.sp_a.colind i) (d.prob.sp_a.colind (i+1))).foldl
          (fun acc k => updF acc (d.prob.nx + d.prob.sp_a.row k) (d.nz_a k))
          ((cRange (d.prob.sp_h.colind i) (d.prob.sp_h.colind (i+1))).foldl
            (fun acc k => updF acc (d.prob.sp_h.row k) (d.nz_h k)) b1)) j
        = ((cRange (d.prob.sp_a.colind i) (d.prob.sp_a.colind (i+1))).foldl
          (fun acc k => updF acc (d.prob.nx + d.prob.sp_a.row k) (d.nz_a k))
          ((cRange (d.prob.sp_h.colind i) (d.prob.sp_h.colind (i+1))).foldl
            (fun acc k => updF acc (d.prob.sp_h.row k) (d.nz_h k)) b2)) j := by
      intro b1 b2 hb
      exact foldl_updF_congr _ _ _ _ _ _ (foldl_updF_congr _ _ _ _ _ _ hb)
    by_cases hji : j = i
    · subst hji
      simp only [updF, if_pos rfl]
      rw [hcongr (casadi_fill out d.prob.nz 0) (casadi_fill out2 d.prob.nz 0)
        (by rw [hb0, hb0])]
      simp
    · simp only [updF, if_neg hji]
      rw [hcongr (casadi_fill out d.prob.nz 0) (casadi_fill out2 d.prob.nz 0)
        (by rw [hb0, hb0])]
      rw [hb0 out3, ERat.sub_zero_self]
  · rw [if_neg hix, if_neg hix, if_neg hix, if_pos (rfl : (0 : Int) = 0), if_neg hs]
    have hneg : ∀ b1 b2 : ℕ → ERat, b1 j = -(b2 j) →
        ((cRange (d.prob.sp_at.colind (i - d.prob.nx)) (d.prob.sp_at.colind (i - d.prob.nx + 1))).foldl
          (fun acc k => updF acc (d.prob.sp_at.row k) (-(d.nz_at k))) b1) j
        = -(((cRange (d.prob.sp_at.colind (i - d.prob.nx)) (d.prob.sp_at.colind (i - d.prob.nx + 1))).foldl
          (fun acc k => updF acc (d.prob.sp_at.row k) (d.nz_at k)) b2) j) :=
      fun b1 b2 hb => foldl_updF_neg _ _ _ _ _ _ hb
    have hbase : casadi_fill out d.prob.nz 0 j = -(casadi_fill out3 d.prob.nz 0 j) := by
      rw [hb0, hb0]; rfl
    by_cases hji : j = i
    · subst hji
      simp only [updF, if_pos rfl]
      rw [hneg _ _ hbase]
      rw [ERat.sub_comm_neg]
      simp
    · simp only [updF, if_neg hji]
      rw [hneg _ _ hbase]
      rw [hb0 out2, ERat.zero_sub_self]

/-- C4 counterexample: at a concrete one-variable problem the claimed
difference ("make active" minus "make inactive") disagrees with the vector
that the code writes (the code writes the negative of that difference). -/
theorem claim4_counterexample :
    casadi_qp_kkt_vector (mkData prob1) (fun _ => 0) 0 0
      ≠ casadi_qp_kkt_column (mkData prob1) (fun _ => 0) 0 1 0
        - casadi_qp_kkt_column (mkData prob1) (fun _ => 0) 0 0 0 := by
  simp only [casadi_qp_kkt_vector, casadi_qp_kkt_column, mkData, prob1, spEmpty]
  norm_num [casadi_fill, cRange, updF]
  rw [ERat.zero_def, ERat.one_def]
  simp
  norm_num

/-- C4 witness: the amended identity evaluated at a concrete input. -/
theorem claim4_witness :
    casadi_qp_kkt_vector (mkData prob1) (fun _ => 0) 0 0
      = casadi_qp_kkt_column (mkData prob1) (fun _ => 0) 0 0 0
        - casadi_qp_kkt_column (mkData prob1) (fun _ => 0) 0 1 0 :=
  claim4_kkt_vector_diff (mkData prob1) (fun _ => 0) (fun _ => 0) (fun _ => 0) 0 1
    (by decide) (by decide) 0 (by decide)

/-- State of the `casadi_qp_zero_blocking` scan: return flag, the
`dz_max` local (initialized to zero and never updated by the source),
and the in-out `index` and `sign`. -/
structure ZBState where
  ret : Bool
  dz_max : ERat
  index : Int
  sign : Int

/-- `casadi_qp_zero_blocking` (source lines 455-478): report a constraint
already violated by more than `e` at `tau = 0` and pushed further by `dz`.
Each later hit overwrites `index`/`sign`. -/
def zbStep (d : QPData) (e : ERat) (s : ZBState) (i : ℕ) : ZBState :=
  if -(d.dz i) > s.dz_max ∧ d.z i ≤ d.lbz i - e then
    { s with ret := true, index := (i : Int), sign := -1 }
  else if d.dz i > s.dz_max ∧ d.z i ≥ d.ubz i + e then
    { s with ret := true, index := (i : Int), sign := 1 }
  else s

def casadi_qp_zero_blocking (d : QPData) (e : ERat) (index sign : Int) : ZBState :=
  (List.range d.prob.nz).foldl (zbStep d e)
    { ret := false, dz_max := 0, index := index, sign := sign }

/-- Loop of `casadi_qp_primal_blocking` (source lines 494-512): scan the
primal variables, shrinking `tau` at each blocking bound; early return
when `tau ≤ 0`. -/
def casadi_qp_primal_blocking_loop (d : QPData) (e : ERat) :
    List ℕ → ERat × Int × Int → ERat × Int × Int
  | [], s => s
  | i :: rest, (tau, index, sign) =>
    if d.dz i == 0 then casadi_qp_primal_blocking_loop d e rest (tau, index, sign)
    else
      let trial_z := d.z i + tau * d.dz i
      let s' : ERat × Int × Int :=
        if d.dz i < 0 ∧ trial_z < d.lbz i - e then
          ((d.lbz i - e - d.z i) / d.dz i, if d.lam i < 0 then -1 else (i : Int), -1)
        else if d.dz i > 0 ∧ trial_z > d.ubz i + e then
          ((d.ubz i + e - d.z i) / d.dz i, if d.lam i > 0 then -1 else (i : Int), 1)
        else (tau, index, sign)
      if s'.1 ≤ 0 then s'
      else casadi_qp_primal_blocking_loop d e rest s'

/-- `casadi_qp_primal_blocking` (source lines 481-513): zero-blocking probe,
then the scan.  Returns the updated data (with the new `tau`) and the
blocking `index`/`sign`. -/
def casadi_qp_primal_blocking (d : QPData) (e : ERat) (index sign : Int) :
    QPData × Int × Int :=
  let zb := casadi_qp_zero_blocking d e index sign
  if zb.ret then ({ d with tau := 0 }, zb.index, zb.sign)
  else
    let s := casadi_qp_primal_blocking_loop d e (List.range d.prob.nz) (d.tau, index, sign)
    ({ d with tau := s.1 }, s.2.1, s.2.2)

/-- A row that triggers the zero-blocking test (with the `dz_max` local at
its constant value zero): already at or beyond a bound by at least `e` and
pushed further past it by `dz`. -/
def zbQual (d : QPData) (e : ERat) (i : ℕ) : Prop :=
  (-(d.dz i) > 0 ∧ d.z i ≤ d.lbz i - e) ∨ (d.dz i > 0 ∧ d.z i ≥ d.ubz i + e)

instance (d : QPData) (e : ERat) (i : ℕ) : Decidable (zbQual d e i) := by
  unfold zbQual; infer_instance

theorem zbFold_spec (d : QPData) (e : ERat) (n : ℕ) (i0 s0 : Int) :
    let s := (List.range n).foldl (zbStep d e) { ret := false, dz_max := 0, index := i0, sign := s0 }
    s.dz_max = 0 ∧
    (s.ret = false → ((∀ i, i < n → ¬ zbQual d e i) ∧ s.index = i0 ∧ s.sign = s0)) ∧
    (s.ret = true → ∃ i, i < n ∧ s.index = (i : Int) ∧ zbQual d e i ∧
      (∀ j, j < n → zbQual d e j → j ≤ i) ∧
      s.sign = (if -(d.dz i) > 0 ∧ d.z i ≤ d.lbz i - e then -1 else 1)) := by
  induction n with
  | zero =>
    refine ⟨rfl, ?_, ?_⟩
    · intro _
      exact ⟨fun i hi => absurd hi (Nat.not_lt_zero i), rfl, rfl⟩
    · intro h; cases h
  | succ n ih =>
    obtain ⟨hmax, hfalse, htrue⟩ := ih
    rw [List.range_succ, List.foldl_append, List.foldl_cons, List.foldl_nil]
    set sn := (List.range n).foldl (zbStep d e)
      { ret := false, dz_max := 0, index := i0, sign := s0 } with hsn
    unfold zbStep
    rw [hmax]
    by_cases h1 : -(d.dz n) > 0 ∧ d.z n ≤ d.lbz n - e
    · rw [if_pos h1]
      refine ⟨rfl, ?_, ?_⟩
      · intro h; cases h
      · intro _
        refine ⟨n, Nat.lt_succ_self n, rfl, Or.inl h1, ?_, by rw [if_pos h1]⟩
        intro j hj _
        exact Nat.lt_succ_iff.mp hj
    · rw [if_neg h1]
      by_cases h2 : d.dz n > 0 ∧ d.z n ≥ d.ubz n + e
      · rw [if_pos h2]
        refine ⟨rfl, ?_, ?_⟩
        · intro h; cases h
        · intro _
          refine ⟨n, Nat.lt_succ_self n, rfl, Or.inr h2, ?_, by rw [if_neg h1]⟩
          intro j hj _
          exact Nat.lt_succ_iff.mp hj
      · rw [if_neg h2]
        have hnq : ¬ zbQual d e n := by
          rintro (hq | hq)
          · exact h1 hq
          · exact h2 hq
        refine ⟨hmax, ?_, ?_⟩
        · intro hret
          obtain ⟨ha, hb, hc⟩ := hfalse hret
          refine ⟨?_, hb, hc⟩
          intro i hi
          rcases Nat.lt_succ_iff_lt_or_eq.mp hi with hi' | rfl
          · exact ha i hi'
          · exact hnq
        · intro hret
          obtain ⟨i, hi, ha, hb, hc, hd⟩ := htrue hret
          refine ⟨i, Nat.lt_succ_of_lt hi, ha, hb, ?_, hd⟩
          intro j hj hq
          rcases Nat.lt_succ_iff_lt_or_eq.mp hj with hj' | rfl
          · exact hc j hj' hq
          · exact absurd hq hnq

/-- C5 (amended): when zero-blocking triggers, `casadi_qp_primal_blocking`
pins `tau` to 0 and reports the LAST qualifying row of the ascending scan
(the largest qualifying index), not the most-violating one; the sign is the
side whose test that row passes (lower bound checked first). -/
theorem claim5_zero_blocking (d : QPData) (e : ERat) (i0 s0 : Int)
    (hzb : (casadi_qp_zero_blocking d e i0 s0).ret = true) :
    (casadi_qp_primal_blocking d e i0 s0).1.tau = 0 ∧
    ∃ i, i < d.prob.nz ∧
      (casadi_qp_primal_blocking d e i0 s0).2.1 = (i : Int) ∧
      zbQual d e i ∧
      (∀ j, j < d.prob.nz → zbQual d e j → j ≤ i) ∧
      (casadi_qp_primal_blocking d e i0 s0).2.2
        = (if -(d.dz i) > 0 ∧ d.z i ≤ d.lbz i - e then -1 else 1) := by
  obtain ⟨_, _, htrue⟩ := zbFold_spec d e d.prob.nz i0 s0
  have hres : casadi_qp_primal_blocking d e i0 s0
      = ({ d with tau := 0 }, (casadi_qp_zero_blocking d e i0 s0).index,
         (casadi_qp_zero_blocking d e i0 s0).sign) := by
    unfold casadi_qp_primal_blocking
    rw [if_pos hzb]
  obtain ⟨i, hi, ha, hb, hc, hd⟩ := htrue hzb
  rw [hres]
  exact ⟨rfl, i, hi, ha, hb, hc, hd⟩

/-- A 2-variable, 0-constraint problem descriptor with empty H and A. -/
def prob2 : QPProb :=
  { nx := 2, na := 0, nz := 2, dmin := 1, inf := ERat.posInf, du_to_pr := 1,
    sp_a := spEmpty 0 2, sp_h := spEmpty 2 2, sp_at := spEmpty 2 0,
    sp_kkt := spEmpty 2 2 }

/-- Concrete zero-blocking state: both rows sit below their lower bound and
are pushed further down; row 0 violates by 10, row 1 only by 1. -/
def d5c : QPData :=
  { mkData prob2 with
      z := fun i => if i = 0 then ERat.fin (-10) else ERat.fin (-1),
      lbz := fun _ => 0,
      ubz := fun _ => ERat.fin 100,
      dz := fun _ => ERat.fin (-1),
      tau := 1 }

/-- C5 counterexample: the reported blocking constraint is row 1, the last
qualifying row of the scan, although row 0 has the strictly larger bound
violation — refuting "the most-violating component becomes the blocking
constraint". -/
theorem claim5_counterexample :
    (casadi_qp_primal_blocking d5c 0 (-1) 0).2.1 = 1 ∧
    zbQual d5c 0 0 ∧ zbQual d5c 0 1 ∧
    d5c.lbz 1 - d5c.z 1 < d5c.lbz 0 - d5c.z 0 := by
  refine ⟨?_, ?_, ?_, ?_⟩
  · simp only [casadi_qp_primal_blocking, casadi_qp_zero_blocking, zbStep,
      d5c, mkData, prob2, spEmpty, List.range_succ, List.range_zero,
      List.foldl_append, List.foldl_cons, List.foldl_nil,
      ERat.zero_def, ERat.one_def]
    norm_num
  · unfold zbQual
    simp only [d5c, mkData, prob2, ERat.zero_def]
    norm_num
  · unfold zbQual
    simp only [d5c, mkData, prob2, ERat.zero_def]
    norm_num
  · simp only [d5c, mkData, prob2, ERat.zero_def]
    norm_num

/-- C5 witness: the amended statement instantiated at the same concrete
zero-blocking state. -/
theorem claim5_witness :
    (casadi_qp_primal_blocking d5c 0 (-1) 0).1.tau = 0 ∧
    ∃ i, i < d5c.prob.nz ∧
      (casadi_qp_primal_blocking d5c 0 (-1) 0).2.1 = (i : Int) ∧
      zbQual d5c 0 i ∧
      (∀ j, j < d5c.prob.nz → zbQual d5c 0 j → j ≤ i) ∧
      (casadi_qp_primal_blocking d5c 0 (-1) 0).2.2
        = (if -(d5c.dz i) > 0 ∧ d5c.z i ≤ d5c.lbz i - 0 then -1 else 1) :=
  claim5_zero_blocking d5c 0 (-1) 0 (by
    simp only [casadi_qp_zero_blocking, zbStep, d5c, mkData, prob2, spEmpty,
      List.range_succ, List.range_zero, List.foldl_append, List.foldl_cons, List.foldl_nil,
      ERat.zero_def, ERat.one_def]
    norm_num)

/-- The primal iterate at step length `t` stays within the `e`-enlarged
bounds at row `i` (the spec's bound-satisfaction envelope). -/
def envAt (d : QPData) (e : ERat) (i : ℕ) (t : ERat) : Prop :=
  d.lbz i - e ≤ d.z i + t * d.dz i ∧ d.z i + t * d.dz i ≤ d.ubz i + e

theorem ERat.isFin_iff {x : ERat} : x.isFin = true ↔ ∃ q, x = ERat.fin q := by
  cases x <;> simp [ERat.isFin]

@[simp] theorem ERat.posInf_sub_fin (q : ℚ) : ERat.posInf - ERat.fin q = ERat.posInf := rfl
@[simp] theorem ERat.negInf_sub_fin (q : ℚ) : ERat.negInf - ERat.fin q = ERat.negInf := rfl
@[simp] theorem ERat.posInf_add_fin (q : ℚ) : ERat.posInf + ERat.fin q = ERat.posInf := rfl
@[simp] theorem ERat.negInf_add_fin (q : ℚ) : ERat.negInf + ERat.fin q = ERat.negInf := rfl
@[simp] theorem ERat.fin_add_posInf (q : ℚ) : ERat.fin q + ERat.posInf = ERat.posInf := rfl
@[simp] theorem ERat.fin_add_negInf (q : ℚ) : ERat.fin q + ERat.negInf = ERat.negInf := rfl

theorem env_lower_cases {lb : ERat} {eq v : ℚ} (h : lb - ERat.fin eq ≤ ERat.fin v) :
    lb = ERat.negInf ∨ ∃ lq, lb = ERat.fin lq ∧ lq - eq ≤ v := by
  cases lb with
  | negInf => exact Or.inl rfl
  | posInf => simp at h
  | fin lq =>
    right
    refine ⟨lq, rfl, ?_⟩
    simpa using h

theorem env_upper_cases {ub : ERat} {eq v : ℚ} (h : ERat.fin v ≤ ub + ERat.fin eq) :
    ub = ERat.posInf ∨ ∃ uq, ub = ERat.fin uq ∧ v ≤ uq + eq := by
  cases ub with
  | posInf => exact Or.inl rfl
  | negInf => simp at h
  | fin uq =>
    right
    refine ⟨uq, rfl, ?_⟩
    simpa using h

theorem envAt_build {d : QPData} {eq : ℚ} {i : ℕ} {v w t : ℚ}
    (hz : d.z i = ERat.fin v) (hdz : d.dz i = ERat.fin w)
    (hlow : d.lbz i = ERat.negInf ∨ ∃ lq, d.lbz i = ERat.fin lq ∧ lq - eq ≤ v + t * w)
    (hup : d.ubz i = ERat.posInf ∨ ∃ uq, d.ubz i = ERat.fin uq ∧ v + t * w ≤ uq + eq) :
    envAt d (ERat.fin eq) i (ERat.fin t) := by
  unfold envAt
  rw [hz, hdz]
  constructor
  · rcases hlow with hl | ⟨lq, hl, hle⟩
    · rw [hl]; simp
    · rw [hl]; simpa using hle
  · rcases hup with hu | ⟨uq, hu, hle⟩
    · rw [hu]; simp
    · rw [hu]; simpa using hle

theorem env_base {d : QPData} {eq v w : ℚ} {i : ℕ}
    (hz : d.z i = ERat.fin v) (hdz : d.dz i = ERat.fin w)
    (h : envAt d (ERat.fin eq) i 0) :
    d.lbz i - ERat.fin eq ≤ ERat.fin v ∧ ERat.fin v ≤ d.ubz i + ERat.fin eq := by
  unfold envAt at h
  rw [hz, hdz] at h
  simpa [ERat.zero_def] using h

theorem pb_loop_env (d : QPData) (eq : ℚ) (he : 0 ≤ eq)
    (hz : ∀ i, i < d.prob.nz → (d.z i).isFin = true)
    (hdz : ∀ i, i < d.prob.nz → (d.dz i).isFin = true)
    (henv : ∀ i, i < d.prob.nz → envAt d (ERat.fin eq) i 0) :
    ∀ (l : List ℕ), (∀ i ∈ l, i < d.prob.nz) →
    ∀ (tq : ℚ), 0 ≤ tq → ∀ (idx sgn : Int),
    (∀ j, j < d.prob.nz → j ∉ l →
      ∀ t : ℚ, 0 ≤ t → t ≤ tq → envAt d (ERat.fin eq) j (ERat.fin t)) →
    ∃ tq' : ℚ, 0 ≤ tq' ∧
      (casadi_qp_primal_blocking_loop d (ERat.fin eq) l (ERat.fin tq, idx, sgn)).1
        = ERat.fin tq' ∧
      ∀ j, j < d.prob.nz → envAt d (ERat.fin eq) j (ERat.fin tq') := by
  have henv0 : ∀ j, j < d.prob.nz → envAt d (ERat.fin eq) j (ERat.fin 0) := by
    intro j hj
    exact henv j hj
  intro l
  induction l with
  | nil =>
    intro _ tq ht idx sgn hstable
    refine ⟨tq, ht, rfl, ?_⟩
    intro j hj
    exact hstable j hj (List.not_mem_nil j) tq ht (le_refl tq)
  | cons i rest ih =>
    intro hl tq ht idx sgn hstable
    have hi : i < d.prob.nz := hl i (List.mem_cons_self i rest)
    have hl' : ∀ j ∈ rest, j < d.prob.nz := fun j hj => hl j (List.mem_cons_of_mem _ hj)
    obtain ⟨v, hv⟩ := ERat.isFin_iff.mp (hz i hi)
    obtain ⟨w, hw⟩ := ERat.isFin_iff.mp (hdz i hi)
    obtain ⟨hbl, hbu⟩ := env_base hv hw (henv i hi)
    simp only [casadi_qp_primal_blocking_loop]
    by_cases h0 : (d.dz i == (0 : ERat)) = true
    · rw [if_pos h0]
      have hw0 : w = 0 := by
        have : d.dz i = (0 : ERat) := by simpa using h0
        rw [hw] at this
        simpa [ERat.zero_def] using this
      apply ih hl' tq ht idx sgn
      intro j hj hjr t ht0 htq
      by_cases hji : j = i
      · subst hji
        apply envAt_build hv hw
        · rcases env_lower_cases hbl with hlb | ⟨lq, hlb, hlq⟩
          · exact Or.inl hlb
          · exact Or.inr ⟨lq, hlb, by rw [hw0]; linarith⟩
        · rcases env_upper_cases hbu with hub | ⟨uq, hub, huq⟩
          · exact Or.inl hub
          · exact Or.inr ⟨uq, hub, by rw [hw0]; linarith⟩
      · exact hstable j hj (fun hm => by
          rcases List.mem_cons.mp hm with h | h
          · exact hji h
          · exact hjr h) t ht0 htq
    · rw [if_neg h0]
      have hwne : w ≠ 0 := by
        intro hq
        apply h0
        rw [hw, hq]
        simp [ERat.zero_def]
      by_cases hB1 : d.dz i < 0 ∧ d.z i + ERat.fin tq * d.dz i < d.lbz i - ERat.fin eq
      · rw [if_pos hB1]
        have hwneg : w < 0 := by
          have := hB1.1
          rw [hw] at this
          simpa [ERat.zero_def] using this
        rcases env_lower_cases hbl with hlb | ⟨lq, hlb, hlq⟩
        · exfalso
          have := hB1.2
          rw [hlb] at this
          simp at this
        · have htrial : v + tq * w < lq - eq := by
            have := hB1.2
            rw [hlb, hv, hw] at this
            simpa using this
          have ht'0 : (0 : ℚ) ≤ (lq - eq - v) / w := by
            rw [div_nonneg_iff]
            right
            exact ⟨by linarith, le_of_lt hwneg⟩
          have ht'lt : (lq - eq - v) / w < tq := by
            rw [div_lt_iff_of_neg hwneg]
            linarith
          have htmul : (lq - eq - v) / w * w = lq - eq - v :=
            div_mul_cancel₀ _ hwne
          have hs1 : (d.lbz i - ERat.fin eq - d.z i) / d.dz i
              = ERat.fin ((lq - eq - v) / w) := by
            rw [hlb, hv, hw]
            simp
          rw [hs1]
          have hstable' : ∀ j, j < d.prob.nz → j ∉ rest →
              ∀ t : ℚ, 0 ≤ t → t ≤ (lq - eq - v) / w →
                envAt d (ERat.fin eq) j (ERat.fin t) := by
            intro j hj hjr t ht0 htle
            by_cases hji : j = i
            · subst hji
              apply envAt_build hv hw
              · refine Or.inr ⟨lq, hlb, ?_⟩
                have : t * w ≥ (lq - eq - v) / w * w :=
                  mul_le_mul_of_nonpos_right htle (le_of_lt hwneg)
                rw [htmul] at this
                linarith
              · rcases env_upper_cases hbu with hub | ⟨uq, hub, huq⟩
                · exact Or.inl hub
                · refine Or.inr ⟨uq, hub, ?_⟩
                  nlinarith
            · exact hstable j hj (fun hm => by
                rcases List.mem_cons.mp hm with h | h
                · exact hji h
                · exact hjr h) t ht0 (by linarith)
          by_cases hex : (ERat.fin ((lq - eq - v) / w) : ERat) ≤ 0
          · rw [if_pos hex]
            have ht'eq : (lq - eq - v) / w = 0 := by
              have : (lq - eq - v) / w ≤ 0 := by simpa [ERat.zero_def] using hex
              linarith
            exact ⟨(lq - eq - v) / w, ht'0, rfl, by rw [ht'eq]; exact henv0⟩
          · rw [if_neg hex]
            exact ih hl' _ ht'0 _ _ hstable'
      · rw [if_neg hB1]
        by_cases hB2 : d.dz i > 0 ∧ d.z i + ERat.fin tq * d.dz i > d.ubz i + ERat.fin eq
        · rw [if_pos hB2]
          have hwpos : 0 < w := by
            have := hB2.1
            rw [hw] at this
            simpa [ERat.zero_def] using this
          rcases env_upper_cases hbu with hub | ⟨uq, hub, huq⟩
          · exfalso
            have := hB2.2
            rw [hub] at this
            simp at this
          · have htrial : uq + eq < v + tq * w := by
              have := hB2.2
              rw [hub, hv, hw] at this
              simpa using this
            have ht'0 : (0 : ℚ) ≤ (uq + eq - v) / w :=
              div_nonneg (by linarith) (le_of_lt hwpos)
            have ht'lt : (uq + eq - v) / w < tq := by
              rw [div_lt_iff hwpos]
              linarith
            have htmul : (uq + eq - v) / w * w = uq + eq - v :=
              div_mul_cancel₀ _ hwne
            have hs1 : (d.ubz i + ERat.fin eq - d.z i) / d.dz i
                = ERat.fin ((uq + eq - v) / w) := by
              rw [hub, hv, hw]
              simp
            rw [hs1]
            have hstable' : ∀ j, j < d.prob.nz → j ∉ rest →
                ∀ t : ℚ, 0 ≤ t → t ≤ (uq + eq - v) / w →
                  envAt d (ERat.fin eq) j (ERat.fin t) := by
              intro j hj hjr t ht0 htle
              by_cases hji : j = i
              · subst hji
                apply envAt_build hv hw
                · rcases env_lower_cases hbl with hlb | ⟨lq, hlb, hlq⟩
                  · exact Or.inl hlb
                  · refine Or.inr ⟨lq, hlb, ?_⟩
                    nlinarith
                · refine Or.inr ⟨uq, hub, ?_⟩
                  have : t * w ≤ (uq + eq - v) / w * w :=
                    mul_le_mul_of_nonneg_right htle (le_of_lt hwpos)
                  rw [htmul] at this
                  linarith
              · exact hstable j hj (fun hm => by
                  rcases List.mem_cons.mp hm with h | h
                  · exact hji h
                  · exact hjr h) t ht0 (by linarith)
            by_cases hex : (ERat.fin ((uq + eq - v) / w) : ERat) ≤ 0
            · rw [if_pos hex]
              have ht'eq : (uq + eq - v) / w = 0 := by
                have : (uq + eq - v) / w ≤ 0 := by simpa [ERat.zero_def] using hex
                linarith
              exact ⟨(uq + eq - v) / w, ht'0, rfl, by rw [ht'eq]; exact henv0⟩
            · rw [if_neg hex]
              exact ih hl' _ ht'0 _ _ hstable'
        · rw [if_neg hB2]
          have hstable' : ∀ j, j < d.prob.nz → j ∉ rest →
              ∀ t : ℚ, 0 ≤ t → t ≤ tq → envAt d (ERat.fin eq) j (ERat.fin t) := by
            intro j hj hjr t ht0 htle
            by_cases hji : j = i
            · subst hji
              rcases lt_trichotomy w 0 with hwneg | hweq | hwpos
              · -- dz < 0 and the lower test failed: trial stays above lbz - e
                have hnl : ¬ d.z j + ERat.fin tq * d.dz j < d.lbz j - ERat.fin eq := by
                  intro hc
                  exact hB1 ⟨by rw [hw]; simpa [ERat.zero_def] using hwneg, hc⟩
                apply envAt_build hv hw
                · rcases env_lower_cases hbl with hlb | ⟨lq, hlb, hlq⟩
                  · exact Or.inl hlb
                  · refine Or.inr ⟨lq, hlb, ?_⟩
                    have htr : ¬ (v + tq * w < lq - eq) := by
                      intro hc
                      apply hnl
                      rw [hlb, hv, hw]
                      simpa using hc
                    push_neg at htr
                    clear hnl
                    nlinarith
                · rcases env_upper_cases hbu with hub | ⟨uq, hub, huq⟩
                  · exact Or.inl hub
                  · refine Or.inr ⟨uq, hub, ?_⟩
                    clear hnl
                    nlinarith
              · exact absurd hweq hwne
              · have hnu : ¬ d.z j + ERat.fin tq * d.dz j > d.ubz j + ERat.fin eq := by
                  intro hc
                  exact hB2 ⟨by rw [hw]; simpa [ERat.zero_def] using hwpos, hc⟩
                apply envAt_build hv hw
                · rcases env_lower_cases hbl with hlb | ⟨lq, hlb, hlq⟩
                  · exact Or.inl hlb
                  · refine Or.inr ⟨lq, hlb, ?_⟩
                    clear hnu
                    nlinarith
                · rcases env_upper_cases hbu with hub | ⟨uq, hub, huq⟩
                  · exact Or.inl hub
                  · refine Or.inr ⟨uq, hub, ?_⟩
                    have htr : ¬ (uq + eq < v + tq * w) := by
                      intro hc
                      apply hnu
                      rw [hub, hv, hw]
                      simpa using hc
                    push_neg at htr
                    clear hnu
                    nlinarith
            · exact hstable j hj (fun hm => by
                rcases List.mem_cons.mp hm with h | h
                · exact hji h
                · exact hjr h) t ht0 htle
          by_cases hex : (ERat.fin tq : ERat) ≤ 0
          · rw [if_pos hex]
            have hteq : tq = 0 := by
              have : tq ≤ 0 := by simpa [ERat.zero_def] using hex
              linarith
            exact ⟨tq, ht, rfl, by rw [hteq]; exact henv0⟩
          · rw [if_neg hex]
            exact ih hl' tq ht idx sgn hstable'

/-- C6 (amended): if the error budget `e` is a nonnegative finite number,
the incoming `tau` is nonnegative and finite, `z` and `dz` are finite, and
at `tau = 0` every component already lies within the `e`-enlarged bounds,
then (when zero-blocking reports no blocking) the step accepted by
`casadi_qp_primal_blocking` keeps every component within the `e`-enlarged
bounds.  The envelope hypothesis at `tau = 0` is what the counterexample
forces: without it a component already past its far bound can stay outside
the envelope at the accepted step. -/
theorem claim6_primal_blocking (d : QPData) (eq tq0 : ℚ) (i0 s0 : Int)
    (he : 0 ≤ eq) (htau : d.tau = ERat.fin tq0) (ht0 : 0 ≤ tq0)
    (hz : ∀ i, i < d.prob.nz → (d.z i).isFin = true)
    (hdz : ∀ i, i < d.prob.nz → (d.dz i).isFin = true)
    (henv : ∀ i, i < d.prob.nz → envAt d (ERat.fin eq) i 0)
    (hnzb : (casadi_qp_zero_blocking d (ERat.fin eq) i0 s0).ret = false) :
    ∃ tq' : ℚ, 0 ≤ tq' ∧
      (casadi_qp_primal_blocking d (ERat.fin eq) i0 s0).1.tau = ERat.fin tq' ∧
      ∀ i, i < d.prob.nz → envAt d (ERat.fin eq) i (ERat.fin tq') := by
  have hloop := pb_loop_env d eq he hz hdz henv (List.range d.prob.nz)
    (fun i hi => List.mem_range.mp hi) tq0 ht0 i0 s0
    (fun j hj hjl _ _ _ => absurd (List.mem_range.mpr hj) hjl)
  obtain ⟨tq', h1, h2, h3⟩ := hloop
  refine ⟨tq', h1, ?_, h3⟩
  unfold casadi_qp_primal_blocking
  rw [if_neg (by rw [hnzb]; exact Bool.false_ne_true)]
  dsimp only
  rw [htau]
  exact h2

/-- Concrete state refuting C6 as stated: one variable far above its upper
bound, moving down but not fast enough; zero-blocking does not trigger, yet
the accepted step leaves the variable above `ubz + e`. -/
def d6c : QPData :=
  { mkData prob1 with
      z := fun _ => ERat.fin 10,
      lbz := fun _ => ERat.fin (-100),
      ubz := fun _ => 0,
      dz := fun _ => ERat.fin (-1),
      tau := 1 }

/-- C6 counterexample: with `e = 0 ≥ 0` and no zero-blocking at `tau = 0`,
the step accepted by `casadi_qp_primal_blocking` still violates the upper
bound by more than `e`: the claim needs the additional hypothesis that the
state is inside the `e`-envelope at `tau = 0`. -/
theorem claim6_counterexample :
    (casadi_qp_zero_blocking d6c 0 (-1) 0).ret = false ∧
    ¬ (d6c.z 0 + (casadi_qp_primal_blocking d6c 0 (-1) 0).1.tau * d6c.dz 0
        ≤ d6c.ubz 0 + 0) := by
  constructor
  · simp only [d6c, mkData, prob1, spEmpty, ERat.zero_def, ERat.one_def]
    norm_num [casadi_qp_zero_blocking, zbStep, List.range_succ]
  · simp only [d6c, mkData, prob1, spEmpty, ERat.zero_def, ERat.one_def]
    norm_num [casadi_qp_primal_blocking, casadi_qp_zero_blocking,
      casadi_qp_primal_blocking_loop, zbStep, List.range_succ]

/-- Simple in-envelope state for the C6 witness. -/
def d6w : QPData :=
  { mkData prob1 with
      z := fun _ => 0,
      lbz := fun _ => ERat.fin (-1),
      ubz := fun _ => ERat.fin 1,
      dz := fun _ => ERat.fin 1,
      tau := 1 }

/-- C6 witness: the amended statement applied at a concrete in-envelope
state. -/
theorem claim6_witness :
    ∃ tq' : ℚ, 0 ≤ tq' ∧
      (casadi_qp_primal_blocking d6w 0 (-1) 0).1.tau = ERat.fin tq' ∧
      ∀ i, i < d6w.prob.nz → envAt d6w 0 i (ERat.fin tq') := by
  have h := claim6_primal_blocking d6w 0 1 (-1) 0 (le_refl 0) rfl (by norm_num)
    (by intro i _; simp [d6w, mkData, prob1, ERat.isFin])
    (by intro i _; simp [d6w, mkData, prob1, ERat.isFin])
    (by
      intro i _
      unfold envAt
      simp [d6w, mkData, prob1, ERat.zero_def])
    (by
      simp only [casadi_qp_zero_blocking, zbStep, d6w, mkData, prob1, spEmpty,
        List.range_succ, List.range_zero, List.foldl_append, List.foldl_cons,
        List.foldl_nil, ERat.zero_def, ERat.one_def]
      norm_num)
  simpa [ERat.zero_def] using h

/-- Insertion step of `casadi_qp_dual_breakpoints` (source lines 537-552):
the position scan runs over `loc = 0 .. n_tau-2` only, so the new
breakpoint is inserted before the first strictly larger element among all
but the last entry, or, failing that, just before the last entry. -/
def bpInsert (x : ERat × Int) : List (ERat × Int) → List (ERat × Int)
  | [] => [x]
  | a :: l =>
    if l.isEmpty then x :: a :: l
    else if x.1 < a.1 then x :: a :: l
    else a :: bpInsert x l

/-- `casadi_qp_dual_breakpoints` (source lines 517-555): start from the
single interval endpoint `(tau, -1)` and insert a breakpoint
`-lam[i]/dlam[i]` for every row whose multiplier changes sign over the
step.  The parameter `e` is unused, exactly as in the source.  The returned
`n_tau` is the length of the list. -/
def casadi_qp_dual_breakpoints (d : QPData) (e tau : ERat) : List (ERat × Int) :=
  (List.range d.prob.nz).foldl
    (fun L i =>
      if d.dlam i == 0 then L
      else if d.lam i == 0 then L
      else
        let trial_lam := d.lam i + tau * d.dlam i
        if (if d.lam i > 0 then trial_lam ≥ 0 else trial_lam ≤ 0) then L
        else bpInsert (-(d.lam i) / d.dlam i, (i : Int)) L)
    [(tau, -1)]

/-- A row that contributes a breakpoint: nonzero dual step, nonzero
multiplier, and a sign change of `lam + tau*dlam` over the step. -/
def bpQual (d : QPData) (tau : ERat) (i : ℕ) : Prop :=
  ¬ (d.dlam i == 0) = true ∧ ¬ (d.lam i == 0) = true ∧
  ¬ (if d.lam i > 0 then d.lam i + tau * d.dlam i ≥ 0
     else d.lam i + tau * d.dlam i ≤ 0)

instance (d : QPData) (tau : ERat) (i : ℕ) : Decidable (bpQual d tau i) := by
  unfold bpQual; infer_instance

theorem bpInsert_ne_nil (x : ERat × Int) (l : List (ERat × Int)) : bpInsert x l ≠ [] := by
  cases l with
  | nil => simp [bpInsert]
  | cons a t =>
    unfold bpInsert
    by_cases h1 : t.isEmpty
    · simp [h1]
    · simp only [h1]
      by_cases h2 : x.1 < a.1 <;> simp [h2]

theorem bpInsert_perm (x : ERat × Int) (l : List (ERat × Int)) :
    (bpInsert x l).Perm (x :: l) := by
  induction l with
  | nil => simp [bpInsert]
  | cons a t ih =>
    unfold bpInsert
    by_cases h1 : t.isEmpty
    · simp [h1]
    · simp only [h1]
      by_cases h2 : x.1 < a.1
      · simp [h2]
      · simp only [h2, if_false]
        exact (ih.cons a).trans (List.Perm.swap x a t)

theorem getLastQ_cons_of_ne_nil {α : Type} (a : α) {m : List α} (h : m ≠ []) :
    (a :: m).getLast? = m.getLast? := by
  cases m with
  | nil => exact absurd rfl h
  | cons b t => rw [List.getLast?_cons_cons]

theorem bpInsert_getLastQ (x : ERat × Int) (l : List (ERat × Int)) (h : l ≠ []) :
    (bpInsert x l).getLast? = l.getLast? := by
  induction l with
  | nil => exact absurd rfl h
  | cons a t ih =>
    unfold bpInsert
    by_cases h1 : t.isEmpty
    · have ht : t = [] := by simpa using h1
      subst ht
      simp
    · have ht : t ≠ [] := by
        intro he
        rw [he] at h1
        exact h1 rfl
      simp only [h1, Bool.false_eq_true, if_false]
      by_cases h2 : x.1 < a.1
      · rw [if_pos h2, List.getLast?_cons_cons]
      · rw [if_neg h2, getLastQ_cons_of_ne_nil a (bpInsert_ne_nil x t), ih ht,
          getLastQ_cons_of_ne_nil a ht]

theorem bpInsert_head_cases (x b : ERat × Int) (t : List (ERat × Int)) :
    (bpInsert x (b :: t)).head? = some x ∨ (bpInsert x (b :: t)).head? = some b := by
  unfold bpInsert
  by_cases h1 : t.isEmpty
  · simp [h1]
  · simp only [h1, Bool.false_eq_true, if_false]
    by_cases h2 : x.1 < b.1 <;> simp [h2]

theorem bpInsert_chain (x : ERat × Int) (l : List (ERat × Int)) (h : l ≠ [])
    (hc : List.Chain' (fun p q : ERat × Int => p.1 ≤ q.1) l)
    (hx : ∀ lastv, l.getLast? = some lastv → x.1 ≤ lastv.1) :
    List.Chain' (fun p q : ERat × Int => p.1 ≤ q.1) (bpInsert x l) := by
  induction l with
  | nil => exact absurd rfl h
  | cons a t ih =>
    unfold bpInsert
    by_cases h1 : t.isEmpty
    · have ht : t = [] := by simpa using h1
      subst ht
      simp only [h1, if_true]
      refine List.chain'_cons.mpr ⟨?_, by simp⟩
      exact hx a (by simp)
    · have ht : t ≠ [] := by
        intro he
        rw [he] at h1
        exact h1 rfl
      simp only [h1, Bool.false_eq_true, if_false]
      have hc' : List.Chain' (fun p q : ERat × Int => p.1 ≤ q.1) t :=
        (List.chain'_cons'.mp hc).2
      have hx' : ∀ lastv, t.getLast? = some lastv → x.1 ≤ lastv.1 := by
        intro lastv hl
        exact hx lastv (by rw [getLastQ_cons_of_ne_nil a ht]; exact hl)
      by_cases h2 : x.1 < a.1
      · rw [if_pos h2]
        exact List.chain'_cons.mpr ⟨ERat.le_of_lt h2, hc⟩
      · rw [if_neg h2]
        apply List.chain'_cons'.mpr
        constructor
        · intro y hy
          cases t with
          | nil => exact absurd rfl ht
          | cons b t' =>
            rcases bpInsert_head_cases x b t' with hh | hh
            · rw [hh] at hy
              cases hy
              exact ERat.not_lt.mp h2
            · rw [hh] at hy
              cases hy
              exact (List.chain'_cons.mp hc).1
        · exact ih ht hc' hx'

@[simp] theorem ERat.posInf_add_posInf : (ERat.posInf + ERat.posInf : ERat) = ERat.posInf := rfl
@[simp] theorem ERat.negInf_add_negInf : (ERat.negInf + ERat.negInf : ERat) = ERat.negInf := rfl
@[simp] theorem ERat.posInf_add_negInf : (ERat.posInf + ERat.negInf : ERat) = ERat.fin 0 := rfl
@[simp] theorem ERat.negInf_add_posInf : (ERat.negInf + ERat.posInf : ERat) = ERat.fin 0 := rfl

theorem ERat.fin_mul_posInf (a : ℚ) : ERat.fin a * ERat.posInf
    = if 0 < a then ERat.posInf else if a < 0 then ERat.negInf else ERat.fin 0 := rfl
theorem ERat.fin_mul_negInf (a : ℚ) : ERat.fin a * ERat.negInf
    = if 0 < a then ERat.negInf else if a < 0 then ERat.posInf else ERat.fin 0 := rfl
@[simp] theorem ERat.fin_div_posInf (a : ℚ) : ERat.fin a / ERat.posInf = ERat.fin 0 := rfl
@[simp] theorem ERat.fin_div_negInf (a : ℚ) : ERat.fin a / ERat.negInf = ERat.fin 0 := rfl
@[simp] theorem ERat.posInf_div_posInf : (ERat.posInf / ERat.posInf : ERat) = ERat.fin 0 := rfl
@[simp] theorem ERat.posInf_div_negInf : (ERat.posInf / ERat.negInf : ERat) = ERat.fin 0 := rfl
@[simp] theorem ERat.neg_posInf : -(ERat.posInf : ERat) = ERat.negInf := rfl
@[simp] theorem ERat.neg_negInf : -(ERat.negInf : ERat) = ERat.posInf := rfl
theorem ERat.posInf_div_fin (b : ℚ) : (ERat.posInf : ERat) / ERat.fin b
    = if 0 < b then ERat.posInf else if b < 0 then ERat.negInf else ERat.fin 0 := rfl

theorem bp_le_tau (lam dlam tau : ERat) (htau : (0 : ERat) ≤ tau)
    (hq : ¬ (if lam > 0 then lam + tau * dlam ≥ 0 else lam + tau * dlam ≤ 0)) :
    -lam / dlam ≤ tau := by
  cases tau with
  | posInf => exact ERat.le_posInf _
  | negInf =>
    rw [ERat.zero_def] at htau
    simp at htau
  | fin tq =>
    have htq : 0 ≤ tq := by simpa using htau
    by_cases hl : lam > 0
    · rw [if_pos hl] at hq
      cases lam with
      | negInf => simp at hl
      | posInf =>
        exfalso
        apply hq
        rw [ge_iff_le]
        cases dlam with
        | fin w => simp
        | posInf =>
          rcases eq_or_lt_of_le htq with h | h
          · rw [ERat.fin_mul_posInf]
            simp [← h]
          · rw [ERat.fin_mul_posInf, if_pos h]
            simp
        | negInf =>
          rcases eq_or_lt_of_le htq with h | h
          · rw [ERat.fin_mul_negInf]
            simp [← h]
          · rw [ERat.fin_mul_negInf, if_pos h]
            simp
      | fin lq =>
        have hlq : 0 < lq := by simpa using hl
        cases dlam with
        | posInf => simpa using htq
        | negInf => simpa using htq
        | fin w =>
          have hq' : lq + tq * w < 0 := by
            refine lt_of_not_ge fun hc => hq ?_
            rw [ge_iff_le]
            simpa using hc
          clear hq hl htau
          have hw : w < 0 := by nlinarith
          have goal1 : -lq / w ≤ tq := by
            rw [div_le_iff_of_neg hw]
            nlinarith
          simpa using goal1
    · rw [if_neg hl] at hq
      cases lam with
      | posInf => exact absurd (ERat.lt_def.mpr rfl : (0 : ERat) < ERat.posInf) hl
      | negInf =>
        exfalso
        apply hq
        cases dlam with
        | fin w => simp
        | posInf =>
          rcases eq_or_lt_of_le htq with h | h
          · rw [ERat.fin_mul_posInf]
            simp [← h]
          · rw [ERat.fin_mul_posInf, if_pos h]
            simp
        | negInf =>
          rcases eq_or_lt_of_le htq with h | h
          · rw [ERat.fin_mul_negInf]
            simp [← h]
          · rw [ERat.fin_mul_negInf, if_pos h]
            simp
      | fin lq =>
        have hlq : lq ≤ 0 := by
          have h' : ¬ ((0 : ERat) < ERat.fin lq) := hl
          simpa using h'
        cases dlam with
        | posInf => simpa using htq
        | negInf => simpa using htq
        | fin w =>
          have hq' : 0 < lq + tq * w := by
            refine lt_of_not_ge fun hc => hq ?_
            simpa using hc
          clear hq hl htau
          have hw : 0 < w := by nlinarith
          have goal1 : -lq / w ≤ tq := by
            rw [div_le_iff hw]
            nlinarith
          simpa using goal1

theorem bp_fold_spec (d : QPData) (tau : ERat) (htau : (0 : ERat) ≤ tau) (n : ℕ) :
    let L := (List.range n).foldl
      (fun L i =>
        if d.dlam i == 0 then L
        else if d.lam i == 0 then L
        else
          if (if d.lam i > 0 then d.lam i + tau * d.dlam i ≥ 0
              else d.lam i + tau * d.dlam i ≤ 0) then L
          else bpInsert (-(d.lam i) / d.dlam i, (i : Int)) L)
      [(tau, -1)]
    L ≠ [] ∧ L.getLast? = some (tau, -1) ∧
    List.Chain' (fun p q : ERat × Int => p.1 ≤ q.1) L ∧
    L.Perm ((tau, -1) :: ((List.range n).filter (fun i => decide (bpQual d tau i))).map
      (fun i => (-(d.lam i) / d.dlam i, (i : Int)))) := by
  induction n with
  | zero =>
    refine ⟨by simp, by simp, by simp, by simp⟩
  | succ n ih =>
    obtain ⟨hne, hlast, hchain, hperm⟩ := ih
    rw [List.range_succ, List.foldl_append, List.foldl_cons, List.foldl_nil,
      List.filter_append, List.map_append]
    simp only [List.filter_cons, List.filter_nil]
    by_cases c1 : (d.dlam n == (0 : ERat)) = true
    · rw [if_pos c1]
      have hq : decide (bpQual d tau n) = false := by
        simp only [decide_eq_false_iff_not, bpQual]
        intro hc
        exact hc.1 c1
      rw [hq]
      simp only [Bool.false_eq_true, if_false, List.map_nil, List.append_nil]
      exact ⟨hne, hlast, hchain, hperm⟩
    · rw [if_neg c1]
      by_cases c2 : (d.lam n == (0 : ERat)) = true
      · rw [if_pos c2]
        have hq : decide (bpQual d tau n) = false := by
          simp only [decide_eq_false_iff_not, bpQual]
          intro hc
          exact hc.2.1 c2
        rw [hq]
        simp only [Bool.false_eq_true, if_false, List.map_nil, List.append_nil]
        exact ⟨hne, hlast, hchain, hperm⟩
      · rw [if_neg c2]
        by_cases c3 : (if d.lam n > 0 then d.lam n + tau * d.dlam n ≥ 0
            else d.lam n + tau * d.dlam n ≤ 0)
        · rw [if_pos c3]
          have hq : decide (bpQual d tau n) = false := by
            simp only [decide_eq_false_iff_not, bpQual]
            intro hc
            exact hc.2.2 c3
          rw [hq]
          simp only [Bool.false_eq_true, if_false, List.map_nil, List.append_nil]
          exact ⟨hne, hlast, hchain, hperm⟩
        · rw [if_neg c3]
          have hq : decide (bpQual d tau n) = true := by
            simp only [decide_eq_true_eq, bpQual]
            exact ⟨c1, c2, c3⟩
          rw [hq]
          simp only [if_pos rfl, List.map_cons, List.map_nil]
          refine ⟨bpInsert_ne_nil _ _, ?_, ?_, ?_⟩
          · rw [bpInsert_getLastQ _ _ hne]
            exact hlast
          · apply bpInsert_chain _ _ hne hchain
            intro lastv hl
            rw [hlast] at hl
            cases hl
            exact bp_le_tau (d.lam n) (d.dlam n) tau htau c3
          · refine (bpInsert_perm _ _).trans ?_
            refine ((hperm.cons _).trans ?_)
            refine (List.Perm.swap _ _ _).trans ?_
            refine List.Perm.cons _ ?_
            exact (List.perm_append_singleton _ _).symm

/-- C7 fixture: one row with `lam = 1` and `dlam = 2` over `prob1`. -/
def d7c : QPData :=
  { mkData prob1 with lam := fun _ => ERat.fin 1, dlam := fun _ => ERat.fin 2 }

/-- C7 (amended): provided the incoming `tau` is nonnegative,
`casadi_qp_dual_breakpoints` returns a nonempty list (`n_tau` is its
length), sorted in ascending breakpoint order, whose final entry is
`(tau, -1)` — the incoming `tau` with no associated index — and which
contains exactly one breakpoint `-lam[i]/dlam[i]` paired with index `i`
for every row `i` with `dlam[i] ≠ 0`, `lam[i] ≠ 0`, and a sign change of
`lam[i] + tau*dlam[i]` over the step.  The nonnegativity hypothesis is
needed: for a negative incoming `tau` the returned list need not be
sorted. -/
theorem claim7_dual_breakpoints (d : QPData) (e tau : ERat)
    (htau : (0 : ERat) ≤ tau) :
    casadi_qp_dual_breakpoints d e tau ≠ [] ∧
    (casadi_qp_dual_breakpoints d e tau).getLast? = some (tau, -1) ∧
    List.Chain' (fun p q : ERat × Int => p.1 ≤ q.1)
      (casadi_qp_dual_breakpoints d e tau) ∧
    (casadi_qp_dual_breakpoints d e tau).Perm ((tau, -1) ::
      ((List.range d.prob.nz).filter (fun i => decide (bpQual d tau i))).map
        (fun i => (-(d.lam i) / d.dlam i, (i : Int)))) := by
  have h := bp_fold_spec d tau htau d.prob.nz
  exact h

/-- C7 counterexample to the claim as stated (no restriction on `tau`):
with incoming `tau = -1` on a state with `lam = 1`, `dlam = 2`, the
breakpoint `-1/2` is inserted before the final entry `-1`, so the
returned list `[(-1/2, 0), (-1, -1)]` is not sorted ascending. -/
theorem claim7_counterexample :
    ¬ List.Chain' (fun p q : ERat × Int => p.1 ≤ q.1)
      (casadi_qp_dual_breakpoints d7c 0 (ERat.fin (-1))) := by
  have hL : casadi_qp_dual_breakpoints d7c 0 (ERat.fin (-1)) =
      [(ERat.fin (-1/2), 0), (ERat.fin (-1), -1)] := by
    simp only [casadi_qp_dual_breakpoints, d7c, mkData, prob1, List.range_succ,
      List.range_zero, List.foldl_append, List.foldl_cons, List.foldl_nil,
      List.nil_append, ERat.zero_def, ERat.one_def]
    norm_num [bpInsert]
  rw [hL]
  norm_num [List.chain'_cons, List.chain'_singleton]

/-- C7 witness: the amended theorem instantiated at the all-zero one-row
state with `tau = 1`. -/
theorem claim7_witness :
    (0 : ERat) ≤ (1 : ERat) ∧
    (casadi_qp_dual_breakpoints (mkData prob1) 0 1 ≠ [] ∧
     (casadi_qp_dual_breakpoints (mkData prob1) 0 1).getLast? = some (1, -1) ∧
     List.Chain' (fun p q : ERat × Int => p.1 ≤ q.1)
       (casadi_qp_dual_breakpoints (mkData prob1) 0 1) ∧
     (casadi_qp_dual_breakpoints (mkData prob1) 0 1).Perm ((1, -1) ::
       ((List.range (mkData prob1).prob.nz).filter
         (fun i => decide (bpQual (mkData prob1) 1 i))).map
         (fun i => (-((mkData prob1).lam i) / (mkData prob1).dlam i,
           (i : Int))))) :=
  ⟨by rw [ERat.zero_def, ERat.one_def]; norm_num,
   claim7_dual_breakpoints (mkData prob1) 0 1
     (by rw [ERat.zero_def, ERat.one_def]; norm_num)⟩

/-- `casadi_qp_du_check` (source lines 213-234): the maximum dual
infeasibility that would result from setting `lam[i] = 0`: for a simple
bound (`i < nx`) remove `lam[i]` from `infeas[i]`; for a constraint
multiplier remove its contribution from every row of column `i - nx` of
`A^T`. -/
def casadi_qp_du_check (d : QPData) (i : ℕ) : ERat :=
  let p := d.prob
  if i < p.nx then ERat.abs (d.infeas i - d.lam i)
  else
    (cRange (p.sp_at.colind (i - p.nx)) (p.sp_at.colind (i - p.nx + 1))).foldl
      (fun acc k =>
        ERat.fmax acc (ERat.abs (d.infeas (p.sp_at.row k) - d.nz_at k * d.lam i)))
      0

/-- The sensitivity vector written into `d.w` at the top of
`casadi_qp_du_index` (source lines 243-245): zero everywhere, `∓1` at
`idu` (the sign chosen to decrease `infeas[idu]`), then the constraint
part `w[nx:]` receives `A * w[0:nx]`. -/
def duSens (d : QPData) : ℕ → ERat :=
  let p := d.prob
  let w1 := casadi_fill d.w p.nz 0
  let w2 := updF w1 d.idu.toNat
    (if d.infeas d.idu.toNat > 0 then ERat.fin (-1) else ERat.fin 1)
  let wa := casadi_mv d.nz_a p.sp_a w2 (fun j => w2 (j + p.nx)) false
  fun j => if j < p.nx then w2 j else wa (j - p.nx)

/-- One iteration of the scan of `casadi_qp_du_index` (source lines
250-262), carrying the pair `(best_ind, best_w)`. -/
def duStep (d : QPData) (w : ℕ → ERat) (b : Int × ERat) (i : ℕ) : Int × ERat :=
  if w i == 0 then b
  else if (if w i > 0 then d.lam i ≥ 0 else d.lam i ≤ 0) then b
  else if casadi_qp_du_check d i > d.du then b
  else if ERat.abs (w i) > b.2 then ((i : Int), ERat.abs (w i)) else b

/-- `casadi_qp_du_index` (source lines 236-272): compute the sensitivity
vector, scan for the best multiplier to zero and return `(index, sign)`:
`(best_ind, 0)` on success, `(-1, sign0)` otherwise (the in-out sign
argument is left untouched). -/
def casadi_qp_du_index (d : QPData) (sign0 : Int) : Int × Int :=
  let b := (List.range d.prob.nz).foldl (duStep d (duSens d)) (-1, 0)
  if b.1 ≥ 0 then (b.1, 0) else (-1, sign0)

/-- A row the scan of `casadi_qp_du_index` may select: nonzero
sensitivity, a multiplier whose sign is opposite to the one the
sensitivity requires, and a `du_check` value not exceeding the current
`du`. -/
def duQual (d : QPData) (w : ℕ → ERat) (i : ℕ) : Prop :=
  ¬ (w i == 0) = true ∧
  ¬ (if w i > 0 then d.lam i ≥ 0 else d.lam i ≤ 0) ∧
  ¬ casadi_qp_du_check d i > d.du

instance (d : QPData) (w : ℕ → ERat) (i : ℕ) : Decidable (duQual d w i) := by
  unfold duQual; infer_instance

theorem ERat.zero_lt_abs {a : ERat} (h : ¬ (a == (0 : ERat)) = true) :
    (0 : ERat) < ERat.abs a := by
  cases a with
  | negInf => rw [ERat.zero_def]; exact ERat.fin_lt_posInf 0
  | posInf => rw [ERat.zero_def]; exact ERat.fin_lt_posInf 0
  | fin q =>
    have hq : q ≠ 0 := by simpa using h
    simp only [ERat.abs, ERat.zero_lt_fin, abs_pos]
    exact hq

theorem duFold_spec (d : QPData) (w : ℕ → ERat) (n : ℕ) :
    let b := (List.range n).foldl (duStep d w) (-1, 0)
    (b.1 = -1 → b.2 = 0 ∧ ∀ j, j < n → ¬ duQual d w j) ∧
    (b.1 ≠ -1 → ∃ r : ℕ, r < n ∧ b.1 = (r : Int) ∧ duQual d w r ∧
      b.2 = ERat.abs (w r) ∧
      (∀ j, j < n → duQual d w j → ERat.abs (w j) ≤ ERat.abs (w r)) ∧
      (∀ j, j < r → duQual d w j → ERat.abs (w j) < ERat.abs (w r))) := by
  induction n with
  | zero =>
    exact ⟨fun _ => ⟨rfl, fun j hj => absurd hj (Nat.not_lt_zero j)⟩,
      fun h => absurd rfl h⟩
  | succ n ih =>
    obtain ⟨hneg, hpos⟩ := ih
    rw [List.range_succ, List.foldl_append, List.foldl_cons, List.foldl_nil]
    set bn := (List.range n).foldl (duStep d w) (-1, 0) with hbn
    have ext : ¬ duQual d w n →
        ((bn.1 = -1 → bn.2 = 0 ∧ ∀ j, j < n + 1 → ¬ duQual d w j) ∧
         (bn.1 ≠ -1 → ∃ r : ℕ, r < n + 1 ∧ bn.1 = (r : Int) ∧ duQual d w r ∧
           bn.2 = ERat.abs (w r) ∧
           (∀ j, j < n + 1 → duQual d w j → ERat.abs (w j) ≤ ERat.abs (w r)) ∧
           (∀ j, j < r → duQual d w j → ERat.abs (w j) < ERat.abs (w r)))) := by
      intro hnq
      constructor
      · intro h1
        obtain ⟨ha, hb⟩ := hneg h1
        refine ⟨ha, ?_⟩
        intro j hj
        rcases Nat.lt_succ_iff_lt_or_eq.mp hj with hj' | rfl
        · exact hb j hj'
        · exact hnq
      · intro h1
        obtain ⟨r, hr, ha, hb, hc, hd, he⟩ := hpos h1
        refine ⟨r, Nat.lt_succ_of_lt hr, ha, hb, hc, ?_, he⟩
        intro j hj hq
        rcases Nat.lt_succ_iff_lt_or_eq.mp hj with hj' | rfl
        · exact hd j hj' hq
        · exact absurd hq hnq
    unfold duStep
    by_cases c1 : (w n == (0 : ERat)) = true
    · rw [if_pos c1]
      exact ext (fun hq => hq.1 c1)
    · rw [if_neg c1]
      by_cases c2 : (if w n > 0 then d.lam n ≥ 0 else d.lam n ≤ 0)
      · rw [if_pos c2]
        exact ext (fun hq => hq.2.1 c2)
      · rw [if_neg c2]
        by_cases c3 : casadi_qp_du_check d n > d.du
        · rw [if_pos c3]
          exact ext (fun hq => hq.2.2 c3)
        · rw [if_neg c3]
          have hqn : duQual d w n := ⟨c1, c2, c3⟩
          by_cases c4 : ERat.abs (w n) > bn.2
          · rw [if_pos c4]
            constructor
            · intro h1
              have h1' : ((n : Int)) = -1 := h1
              omega
            · intro _
              refine ⟨n, Nat.lt_succ_self n, rfl, hqn, rfl, ?_, ?_⟩
              · intro j hj hq
                rcases Nat.lt_succ_iff_lt_or_eq.mp hj with hj' | rfl
                · by_cases hb1 : bn.1 = -1
                  · obtain ⟨_, hnone⟩ := hneg hb1
                    exact absurd hq (hnone j hj')
                  · obtain ⟨r, _, _, _, hc, hd, _⟩ := hpos hb1
                    rw [hc] at c4
                    exact ERat.le_of_lt (ERat.lt_of_le_of_lt (hd j hj' hq) c4)
                · exact ERat.le_refl _
              · intro j hj hq
                by_cases hb1 : bn.1 = -1
                · obtain ⟨_, hnone⟩ := hneg hb1
                  exact absurd hq (hnone j hj)
                · obtain ⟨r, _, _, _, hc, hd, _⟩ := hpos hb1
                  rw [hc] at c4
                  exact ERat.lt_of_le_of_lt (hd j hj hq) c4
          · rw [if_neg c4]
            have hle : ERat.abs (w n) ≤ bn.2 := ERat.not_lt.mp c4
            constructor
            · intro h1
              obtain ⟨ha, _⟩ := hneg h1
              rw [ha] at hle
              exact absurd (ERat.zero_lt_abs c1) (ERat.not_lt.mpr hle)
            · intro h1
              obtain ⟨r, hr, ha, hb, hc, hd, he⟩ := hpos h1
              refine ⟨r, Nat.lt_succ_of_lt hr, ha, hb, hc, ?_, he⟩
              intro j hj hq
              rcases Nat.lt_succ_iff_lt_or_eq.mp hj with hj' | rfl
              · exact hd j hj' hq
              · rw [hc] at hle
                exact hle

/-- C8: `casadi_qp_du_index` returns, among the indices `i < nz` with
sensitivity `w[i] ≠ 0`, a multiplier of the sign opposite to the one the
sensitivity requires, and `du_check(i)` not exceeding the current `du`,
the one with the largest `|w[i]|`, ties broken by the smallest index
(every qualifying index before the returned one has strictly smaller
`|w|`); it returns `-1`, leaving the sign argument untouched, exactly
when no index qualifies. -/
theorem claim8_du_index (d : QPData) (sign0 : Int) :
    ((casadi_qp_du_index d sign0).1 = -1 →
      (∀ j, j < d.prob.nz → ¬ duQual d (duSens d) j) ∧
      (casadi_qp_du_index d sign0).2 = sign0) ∧
    ((casadi_qp_du_index d sign0).1 ≠ -1 →
      (casadi_qp_du_index d sign0).2 = 0 ∧
      ∃ r : ℕ, r < d.prob.nz ∧ (casadi_qp_du_index d sign0).1 = (r : Int) ∧
        duQual d (duSens d) r ∧
        (∀ j, j < d.prob.nz → duQual d (duSens d) j →
          ERat.abs (duSens d j) ≤ ERat.abs (duSens d r)) ∧
        (∀ j, j < r → duQual d (duSens d) j →
          ERat.abs (duSens d j) < ERat.abs (duSens d r))) := by
  obtain ⟨hneg, hpos⟩ := duFold_spec d (duSens d) d.prob.nz
  simp only [casadi_qp_du_index]
  set b := (List.range d.prob.nz).foldl (duStep d (duSens d)) (-1, 0) with hb
  by_cases h : b.1 ≥ 0
  · rw [if_pos h]
    have hne : b.1 ≠ -1 := by omega
    obtain ⟨r, hr, ha, hq, _, hd, he⟩ := hpos hne
    constructor
    · intro h1
      have h1' : b.1 = -1 := h1
      omega
    · intro _
      exact ⟨rfl, r, hr, ha, hq, hd, he⟩
  · rw [if_neg h]
    have hb1 : b.1 = -1 := by
      by_contra hne
      obtain ⟨r, _, ha, _⟩ := hpos hne
      rw [ha] at h
      omega
    constructor
    · intro _
      exact ⟨(hneg hb1).2, rfl⟩
    · intro hcon
      exact absurd rfl hcon

/-- Congruence of an accumulate-at-an-index fold: two runs from bases that
agree below `m`, writing and reading the accumulator only at indices below
`m`, stay equal below `m`. -/
theorem foldl_upd_add_congr (t : ℕ → ℕ) (g : ℕ → ERat) (m : ℕ) :
    ∀ (ks : List ℕ), (∀ k ∈ ks, t k < m) →
    ∀ (y y' : ℕ → ERat), (∀ j, j < m → y j = y' j) →
    ∀ j, j < m →
      (ks.foldl (fun yk k => updF yk (t k) (yk (t k) + g k)) y) j =
      (ks.foldl (fun yk k => updF yk (t k) (yk (t k) + g k)) y') j := by
  intro ks
  induction ks with
  | nil => intro _ y y' hy j hj; exact hy j hj
  | cons k ks ih =>
    intro hks y y' hy j hj
    rw [List.foldl_cons, List.foldl_cons]
    refine ih (fun k' hk' => hks k' (List.mem_cons_of_mem _ hk')) _ _ ?_ j hj
    intro j' hj'
    unfold updF
    by_cases he : j' = t k
    · rw [if_pos he, if_pos he, hy (t k) (hks k (List.mem_cons_self _ _))]
    · rw [if_neg he, if_neg he]
      exact hy j' hj'

theorem casadi_mv_false_eq (a : ℕ → ERat) (sp : Sp) (x y : ℕ → ERat) :
    casadi_mv a sp x y false =
      (List.range sp.ncol).foldl
        (fun yc c => (cRange (sp.colind c) (sp.colind (c+1))).foldl
          (fun yk k => updF yk (sp.row k) (yk (sp.row k) + a k * x c)) yc) y := rfl

theorem casadi_mv_true_eq (a : ℕ → ERat) (sp : Sp) (x y : ℕ → ERat) :
    casadi_mv a sp x y true =
      (List.range sp.ncol).foldl
        (fun yc c => (cRange (sp.colind c) (sp.colind (c+1))).foldl
          (fun yk k => updF yk c (yk c + a k * x (sp.row k))) yc) y := rfl

/-- `casadi_mv` without transpose read-congruence: if the inputs agree on
the columns and the bases agree below `m`, and every nonzero row is below
`m`, the outputs agree below `m`. -/
theorem mv_congr_notr (a : ℕ → ERat) (sp : Sp) (x x' y y' : ℕ → ERat) (m : ℕ)
    (hx : ∀ c, c < sp.ncol → x c = x' c)
    (hrow : ∀ c, c < sp.ncol → ∀ k ∈ cRange (sp.colind c) (sp.colind (c+1)),
      sp.row k < m)
    (hy : ∀ j, j < m → y j = y' j) :
    ∀ j, j < m → casadi_mv a sp x y false j = casadi_mv a sp x' y' false j := by
  have key : ∀ (cs : List ℕ), (∀ c ∈ cs, c < sp.ncol) →
      ∀ (y y' : ℕ → ERat), (∀ j, j < m → y j = y' j) → ∀ j, j < m →
      (cs.foldl (fun yc c => (cRange (sp.colind c) (sp.colind (c+1))).foldl
        (fun yk k => updF yk (sp.row k) (yk (sp.row k) + a k * x c)) yc) y) j =
      (cs.foldl (fun yc c => (cRange (sp.colind c) (sp.colind (c+1))).foldl
        (fun yk k => updF yk (sp.row k) (yk (sp.row k) + a k * x' c)) yc) y') j := by
    intro cs
    induction cs with
    | nil => intro _ y y' hy j hj; exact hy j hj
    | cons c cs ih =>
      intro hcs y y' hy j hj
      rw [List.foldl_cons, List.foldl_cons]
      refine ih (fun c' hc' => hcs c' (List.mem_cons_of_mem _ hc')) _ _ ?_ j hj
      intro j' hj'
      have hc : c < sp.ncol := hcs c (List.mem_cons_self _ _)
      rw [← hx c hc]
      exact foldl_upd_add_congr sp.row (fun k => a k * x c) m _ (hrow c hc) y y' hy j' hj'
  intro j hj
  rw [casadi_mv_false_eq, casadi_mv_false_eq]
  exact key (List.range sp.ncol) (fun c hc => List.mem_range.mp hc) y y' hy j hj

/-- `casadi_mv` with transpose: writes go to the columns, so if the bases
agree below `m` and `ncol ≤ m`, the outputs agree below `m`. -/
theorem mv_congr_tr (a : ℕ → ERat) (sp : Sp) (x y y' : ℕ → ERat) (m : ℕ)
    (hcol : sp.ncol ≤ m)
    (hy : ∀ j, j < m → y j = y' j) :
    ∀ j, j < m → casadi_mv a sp x y true j = casadi_mv a sp x y' true j := by
  have key : ∀ (cs : List ℕ), (∀ c ∈ cs, c < sp.ncol) →
      ∀ (y y' : ℕ → ERat), (∀ j, j < m → y j = y' j) → ∀ j, j < m →
      (cs.foldl (fun yc c => (cRange (sp.colind c) (sp.colind (c+1))).foldl
        (fun yk k => updF yk c (yk c + a k * x (sp.row k))) yc) y) j =
      (cs.foldl (fun yc c => (cRange (sp.colind c) (sp.colind (c+1))).foldl
        (fun yk k => updF yk c (yk c + a k * x (sp.row k))) yc) y') j := by
    intro cs
    induction cs with
    | nil => intro _ y y' hy j hj; exact hy j hj
    | cons c cs ih =>
      intro hcs y y' hy j hj
      rw [List.foldl_cons, List.foldl_cons]
      refine ih (fun c' hc' => hcs c' (List.mem_cons_of_mem _ hc')) _ _ ?_ j hj
      intro j' hj'
      exact foldl_upd_add_congr (fun _ => c) (fun k => a k * x (sp.row k)) m _
        (fun k _ => Nat.lt_of_lt_of_le (hcs c (List.mem_cons_self _ _)) hcol) y y' hy j' hj'
  intro j hj
  rw [casadi_mv_true_eq, casadi_mv_true_eq]
  exact key (List.range sp.ncol) (fun c hc => List.mem_range.mp hc) y y' hy j hj

theorem bilin_congr (a : ℕ → ERat) (sp : Sp) (x x' y y' : ℕ → ERat)
    (hx : ∀ c, c < sp.ncol → ∀ k ∈ cRange (sp.colind c) (sp.colind (c+1)),
      x (sp.row k) = x' (sp.row k))
    (hy : ∀ c, c < sp.ncol → y c = y' c) :
    casadi_bilin a sp x y = casadi_bilin a sp x' y' := by
  unfold casadi_bilin
  apply List.foldl_ext
  intro acc c hc
  apply List.foldl_ext
  intro ac k hk
  rw [hx c (List.mem_range.mp hc) k hk, hy c (List.mem_range.mp hc)]

theorem dot_congr (n : ℕ) (x x' y y' : ℕ → ERat)
    (hx : ∀ i, i < n → x i = x' i) (hy : ∀ i, i < n → y i = y' i) :
    casadi_dot n x y = casadi_dot n x' y' := by
  unfold casadi_dot
  apply List.foldl_ext
  intro acc i hi
  rw [hx i (List.mem_range.mp hi), hy i (List.mem_range.mp hi)]

theorem prFold_congr (d d' : QPData) (hn : d.prob.nz = d'.prob.nz)
    (hlbz : d.lbz = d'.lbz) (hubz : d.ubz = d'.ubz)
    (hz : ∀ j, j < d.prob.nz → d.z j = d'.z j) :
    prFold d = prFold d' := by
  unfold prFold
  rw [← hn, ← hlbz, ← hubz]
  apply List.foldl_ext
  intro acc i hi
  rw [hz i (List.mem_range.mp hi)]

theorem duFold_congr (d d' : QPData) (hn : d.prob.nx = d'.prob.nx)
    (hinf : ∀ i, i < d.prob.nx → d.infeas i = d'.infeas i) :
    duFold d = duFold d' := by
  unfold duFold
  rw [← hn]
  apply List.foldl_ext
  intro acc i hi
  rw [hinf i (List.mem_range.mp hi)]

/-- Constraint part of the primal iterate as recomputed by
`casadi_qp_calc_dependent` (source lines 941-943): `z[nx:] = 0`, then
`z[nx:] += A z[0:nx]`; the simple-bound part `z[0:nx]` is left
untouched. -/
def depZ (d : QPData) : ℕ → ERat :=
  let p := d.prob
  let za := casadi_mv d.nz_a p.sp_a d.z
    (casadi_fill (fun t => d.z (t + p.nx)) p.na 0) false
  fun j => if j < p.nx then d.z j else za (j - p.nx)

/-- Lagrangian gradient as recomputed by `casadi_qp_calc_dependent`
(source lines 944-948): `infeas[0:nx] = g`, `infeas += H z` (with the
updated `z`), `infeas += A^T lam[nx:]`. -/
def depInf3 (d : QPData) : ℕ → ERat :=
  let p := d.prob
  casadi_mv d.nz_a p.sp_a (fun j => d.lam (j + p.nx))
    (casadi_mv d.nz_h p.sp_h (depZ d) (casadi_copy d.g p.nx d.infeas) false) true

/-- One multiplier rewrite of `casadi_qp_calc_dependent` (source lines
950-954): recompute an active `lam[i]` from the Lagrangian gradient
without changing its sign. -/
def depLam (dmin lam infeas : ERat) : ERat :=
  if lam > 0 then ERat.fmax (-infeas) dmin
  else if lam < 0 then ERat.fmin (-infeas) (-dmin)
  else lam

def depLamV (d : QPData) : ℕ → ERat :=
  fun i => if i < d.prob.nx then depLam d.prob.dmin (d.lam i) (depInf3 d i)
           else d.lam i

/-- Dual infeasibility after folding the recomputed multipliers back in
(source line 955). -/
def depInf4 (d : QPData) : ℕ → ERat :=
  fun i => if i < d.prob.nx then depInf3 d i + depLamV d i else depInf3 d i

/-- Objective value (source lines 938-939), computed from the incoming
`z`. -/
def depF (d : QPData) : ERat :=
  casadi_bilin d.nz_h d.prob.sp_h d.z d.z / 2 + casadi_dot d.prob.nx d.z d.g

/-- `casadi_qp_calc_dependent` (source lines 932-960): recompute `f`, the
constraint part `z[nx:]`, the Lagrangian gradient `infeas`, the active
multipliers `lam[0:nx]` and finally the primal and dual errors. -/
def casadi_qp_calc_dependent (d : QPData) : QPData :=
  casadi_qp_du (casadi_qp_pr
    { d with f := depF d, z := depZ d, infeas := depInf4 d, lam := depLamV d })

theorem calc_prob (d : QPData) : (casadi_qp_calc_dependent d).prob = d.prob := rfl
theorem calc_z (d : QPData) : (casadi_qp_calc_dependent d).z = depZ d := rfl
theorem calc_lam (d : QPData) : (casadi_qp_calc_dependent d).lam = depLamV d := rfl
theorem calc_infeas (d : QPData) : (casadi_qp_calc_dependent d).infeas = depInf4 d := rfl
theorem calc_g (d : QPData) : (casadi_qp_calc_dependent d).g = d.g := rfl
theorem calc_lbz (d : QPData) : (casadi_qp_calc_dependent d).lbz = d.lbz := rfl
theorem calc_ubz (d : QPData) : (casadi_qp_calc_dependent d).ubz = d.ubz := rfl
theorem calc_nz_a (d : QPData) : (casadi_qp_calc_dependent d).nz_a = d.nz_a := rfl
theorem calc_nz_h (d : QPData) : (casadi_qp_calc_dependent d).nz_h = d.nz_h := rfl
theorem calc_f (d : QPData) : (casadi_qp_calc_dependent d).f = depF d := rfl

theorem depZ_lo (d : QPData) (j : ℕ) (hj : j < d.prob.nx) : depZ d j = d.z j := by
  simp only [depZ]
  rw [if_pos hj]

theorem depZ_hi (d : QPData) (j : ℕ) (hj : ¬ j < d.prob.nx) :
    depZ d j = casadi_mv d.nz_a d.prob.sp_a d.z
      (casadi_fill (fun t => d.z (t + d.prob.nx)) d.prob.na 0) false
      (j - d.prob.nx) := by
  simp only [depZ]
  rw [if_neg hj]

theorem depLam_idem (dmin lam infeas : ERat) (h : (0 : ERat) < dmin) :
    depLam dmin (depLam dmin lam infeas) infeas = depLam dmin lam infeas := by
  by_cases h1 : lam > 0
  · have hval : depLam dmin lam infeas = ERat.fmax (-infeas) dmin := by
      unfold depLam; rw [if_pos h1]
    rw [hval]
    have hpos : (0 : ERat) < ERat.fmax (-infeas) dmin :=
      ERat.lt_of_lt_of_le h (ERat.le_fmax_right _ _)
    unfold depLam
    rw [if_pos hpos]
  · by_cases h2 : lam < 0
    · have hval : depLam dmin lam infeas = ERat.fmin (-infeas) (-dmin) := by
        unfold depLam; rw [if_neg h1, if_pos h2]
      rw [hval]
      have hneg : ERat.fmin (-infeas) (-dmin) < 0 :=
        ERat.lt_of_le_of_lt (ERat.fmin_le_right _ _) (ERat.neg_lt_zero_of_pos h)
      have hng : ¬ ERat.fmin (-infeas) (-dmin) > 0 :=
        fun hc => ERat.lt_irrefl _ (ERat.lt_trans hc hneg)
      unfold depLam
      rw [if_neg hng, if_pos hneg]
    · have hval : depLam dmin lam infeas = lam := by
        unfold depLam; rw [if_neg h1, if_neg h2]
      rw [hval]
      exact hval

theorem depZ_idem (d : QPData)
    (hAc : d.prob.sp_a.ncol ≤ d.prob.nx)
    (hArow : ∀ c, c < d.prob.sp_a.ncol →
      ∀ k ∈ cRange (d.prob.sp_a.colind c) (d.prob.sp_a.colind (c+1)),
        d.prob.sp_a.row k < d.prob.na)
    (hnz : d.prob.nz ≤ d.prob.nx + d.prob.na) :
    ∀ j, j < d.prob.nz → depZ (casadi_qp_calc_dependent d) j = depZ d j := by
  intro j hj
  by_cases hjx : j < d.prob.nx
  · rw [depZ_lo (casadi_qp_calc_dependent d) j hjx, calc_z, depZ_lo d j hjx]
  · rw [depZ_hi (casadi_qp_calc_dependent d) j hjx, depZ_hi d j hjx,
      calc_prob, calc_z, calc_nz_a]
    refine mv_congr_notr d.nz_a d.prob.sp_a (depZ d) d.z _ _ d.prob.na ?_ hArow ?_
      (j - d.prob.nx) (by omega)
    · intro c hc
      exact depZ_lo d c (Nat.lt_of_lt_of_le hc hAc)
    · intro t ht
      simp only [casadi_fill]
      rw [if_pos ht, if_pos ht]

theorem depInf3_eq (d : QPData) : depInf3 d
    = casadi_mv d.nz_a d.prob.sp_a (fun j => d.lam (j + d.prob.nx))
        (casadi_mv d.nz_h d.prob.sp_h (depZ d)
          (casadi_copy d.g d.prob.nx d.infeas) false) true := rfl

theorem depInf3_idem (d : QPData)
    (hAc : d.prob.sp_a.ncol ≤ d.prob.nx)
    (hHc : d.prob.sp_h.ncol ≤ d.prob.nx)
    (hHrow : ∀ c, c < d.prob.sp_h.ncol →
      ∀ k ∈ cRange (d.prob.sp_h.colind c) (d.prob.sp_h.colind (c+1)),
        d.prob.sp_h.row k < d.prob.nx) :
    ∀ i, i < d.prob.nx → depInf3 (casadi_qp_calc_dependent d) i = depInf3 d i := by
  intro i hi
  rw [depInf3_eq (casadi_qp_calc_dependent d), depInf3_eq d,
    calc_prob, calc_nz_a, calc_nz_h, calc_g, calc_infeas, calc_lam]
  have hxeq : (fun j => depLamV d (j + d.prob.nx)) = (fun j => d.lam (j + d.prob.nx)) := by
    funext j
    simp only [depLamV]
    rw [if_neg (by omega)]
  rw [hxeq]
  refine mv_congr_tr d.nz_a d.prob.sp_a _ _ _ d.prob.nx hAc ?_ i hi
  intro t ht
  refine mv_congr_notr d.nz_h d.prob.sp_h (depZ (casadi_qp_calc_dependent d)) (depZ d)
    _ _ d.prob.nx ?_ hHrow ?_ t ht
  · intro c hc
    have hcx : c < d.prob.nx := Nat.lt_of_lt_of_le hc hHc
    rw [depZ_lo (casadi_qp_calc_dependent d) c hcx, calc_z, depZ_lo d c hcx]
  · intro t' ht'
    simp only [casadi_copy]
    rw [if_pos ht', if_pos ht']

theorem depLamV_idem (d : QPData)
    (hdmin : (0 : ERat) < d.prob.dmin)
    (hAc : d.prob.sp_a.ncol ≤ d.prob.nx)
    (hHc : d.prob.sp_h.ncol ≤ d.prob.nx)
    (hHrow : ∀ c, c < d.prob.sp_h.ncol →
      ∀ k ∈ cRange (d.prob.sp_h.colind c) (d.prob.sp_h.colind (c+1)),
        d.prob.sp_h.row k < d.prob.nx) :
    ∀ j, depLamV (casadi_qp_calc_dependent d) j = depLamV d j := by
  intro j
  by_cases hjx : j < d.prob.nx
  · simp only [depLamV, calc_prob, calc_lam]
    rw [if_pos hjx, if_pos hjx, depInf3_idem d hAc hHc hHrow j hjx]
    exact depLam_idem _ _ _ hdmin
  · simp only [depLamV, calc_prob, calc_lam]
    rw [if_neg hjx, if_neg hjx]

theorem depInf4_idem (d : QPData)
    (hdmin : (0 : ERat) < d.prob.dmin)
    (hAc : d.prob.sp_a.ncol ≤ d.prob.nx)
    (hHc : d.prob.sp_h.ncol ≤ d.prob.nx)
    (hHrow : ∀ c, c < d.prob.sp_h.ncol →
      ∀ k ∈ cRange (d.prob.sp_h.colind c) (d.prob.sp_h.colind (c+1)),
        d.prob.sp_h.row k < d.prob.nx) :
    ∀ i, i < d.prob.nx →
      depInf4 (casadi_qp_calc_dependent d) i = depInf4 d i := by
  intro i hi
  simp only [depInf4, calc_prob]
  rw [if_pos hi, if_pos hi, depInf3_idem d hAc hHc hHrow i hi,
    depLamV_idem d hdmin hAc hHc hHrow i]

theorem depF_idem (d : QPData)
    (hHc : d.prob.sp_h.ncol ≤ d.prob.nx)
    (hHrow : ∀ c, c < d.prob.sp_h.ncol →
      ∀ k ∈ cRange (d.prob.sp_h.colind c) (d.prob.sp_h.colind (c+1)),
        d.prob.sp_h.row k < d.prob.nx) :
    depF (casadi_qp_calc_dependent d) = depF d := by
  simp only [depF, calc_prob, calc_nz_h, calc_g, calc_z]
  have hb : casadi_bilin d.nz_h d.prob.sp_h (depZ d) (depZ d)
      = casadi_bilin d.nz_h d.prob.sp_h d.z d.z := by
    apply bilin_congr
    · intro c hc k hk
      exact depZ_lo d _ (hHrow c hc k hk)
    · intro c hc
      exact depZ_lo d c (Nat.lt_of_lt_of_le hc hHc)
  have hd : casadi_dot d.prob.nx (depZ d) d.g = casadi_dot d.prob.nx d.z d.g := by
    apply dot_congr
    · intro t ht
      exact depZ_lo d t ht
    · intro t ht
      rfl
  rw [hb, hd]

/-- C9: `casadi_qp_calc_dependent` is idempotent: for the well-formed
problem data (positive `dmin` as the spec fixes, sparsity patterns of `H`
and `A` within the `nx`/`na` dimensions), a second call changes none of
`f`, `z`, `lam`, `infeas`, `pr`, `ipr`, `du`, `idu`. -/
theorem claim9_calc_dependent_idem (d : QPData)
    (hdmin : (0 : ERat) < d.prob.dmin)
    (hAc : d.prob.sp_a.ncol ≤ d.prob.nx)
    (hHc : d.prob.sp_h.ncol ≤ d.prob.nx)
    (hHrow : ∀ c, c < d.prob.sp_h.ncol →
      ∀ k ∈ cRange (d.prob.sp_h.colind c) (d.prob.sp_h.colind (c+1)),
        d.prob.sp_h.row k < d.prob.nx)
    (hArow : ∀ c, c < d.prob.sp_a.ncol →
      ∀ k ∈ cRange (d.prob.sp_a.colind c) (d.prob.sp_a.colind (c+1)),
        d.prob.sp_a.row k < d.prob.na)
    (hnz : d.prob.nz ≤ d.prob.nx + d.prob.na) :
    (casadi_qp_calc_dependent (casadi_qp_calc_dependent d)).f
      = (casadi_qp_calc_dependent d).f ∧
    (∀ j, j < d.prob.nz →
      (casadi_qp_calc_dependent (casadi_qp_calc_dependent d)).z j
        = (casadi_qp_calc_dependent d).z j) ∧
    (∀ j, (casadi_qp_calc_dependent (casadi_qp_calc_dependent d)).lam j
        = (casadi_qp_calc_dependent d).lam j) ∧
    (∀ i, i < d.prob.nx →
      (casadi_qp_calc_dependent (casadi_qp_calc_dependent d)).infeas i
        = (casadi_qp_calc_dependent d).infeas i) ∧
    (casadi_qp_calc_dependent (casadi_qp_calc_dependent d)).pr
      = (casadi_qp_calc_dependent d).pr ∧
    (casadi_qp_calc_dependent (casadi_qp_calc_dependent d)).ipr
      = (casadi_qp_calc_dependent d).ipr ∧
    (casadi_qp_calc_dependent (casadi_qp_calc_dependent d)).du
      = (casadi_qp_calc_dependent d).du ∧
    (casadi_qp_calc_dependent (casadi_qp_calc_dependent d)).idu
      = (casadi_qp_calc_dependent d).idu := by
  have hpr : prFold { casadi_qp_calc_dependent d with
      f := depF (casadi_qp_calc_dependent d),
      z := depZ (casadi_qp_calc_dependent d),
      infeas := depInf4 (casadi_qp_calc_dependent d),
      lam := depLamV (casadi_qp_calc_dependent d) }
      = prFold { d with
      f := depF d,
      z := depZ d,
      infeas := depInf4 d,
      lam := depLamV d } := by
    apply prFold_congr
    · rfl
    · rfl
    · rfl
    · exact fun j hj => depZ_idem d hAc hArow hnz j hj
  have hdu : duFold (casadi_qp_pr { casadi_qp_calc_dependent d with
      f := depF (casadi_qp_calc_dependent d),
      z := depZ (casadi_qp_calc_dependent d),
      infeas := depInf4 (casadi_qp_calc_dependent d),
      lam := depLamV (casadi_qp_calc_dependent d) })
      = duFold (casadi_qp_pr { d with
      f := depF d,
      z := depZ d,
      infeas := depInf4 d,
      lam := depLamV d }) := by
    apply duFold_congr
    · rfl
    · exact fun i hi => depInf4_idem d hdmin hAc hHc hHrow i hi
  exact ⟨depF_idem d hHc hHrow,
    fun j hj => depZ_idem d hAc hArow hnz j hj,
    fun j => depLamV_idem d hdmin hAc hHc hHrow j,
    fun i hi => depInf4_idem d hdmin hAc hHc hHrow i hi,
    congrArg Prod.fst hpr, congrArg Prod.snd hpr,
    congrArg Prod.fst hdu, congrArg Prod.snd hdu⟩

/-- C9 witness: the idempotence theorem instantiated at the all-zero
one-variable problem. -/
theorem claim9_witness :
    (casadi_qp_calc_dependent (casadi_qp_calc_dependent (mkData prob1))).f
      = (casadi_qp_calc_dependent (mkData prob1)).f ∧
    (∀ j, j < (mkData prob1).prob.nz →
      (casadi_qp_calc_dependent (casadi_qp_calc_dependent (mkData prob1))).z j
        = (casadi_qp_calc_dependent (mkData prob1)).z j) ∧
    (∀ j, (casadi_qp_calc_dependent (casadi_qp_calc_dependent (mkData prob1))).lam j
        = (casadi_qp_calc_dependent (mkData prob1)).lam j) ∧
    (∀ i, i < (mkData prob1).prob.nx →
      (casadi_qp_calc_dependent (casadi_qp_calc_dependent (mkData prob1))).infeas i
        = (casadi_qp_calc_dependent (mkData prob1)).infeas i) ∧
    (casadi_qp_calc_dependent (casadi_qp_calc_dependent (mkData prob1))).pr
      = (casadi_qp_calc_dependent (mkData prob1)).pr ∧
    (casadi_qp_calc_dependent (casadi_qp_calc_dependent (mkData prob1))).ipr
      = (casadi_qp_calc_dependent (mkData prob1)).ipr ∧
    (casadi_qp_calc_dependent (casadi_qp_calc_dependent (mkData prob1))).du
      = (casadi_qp_calc_dependent (mkData prob1)).du ∧
    (casadi_qp_calc_dependent (casadi_qp_calc_dependent (mkData prob1))).idu
      = (casadi_qp_calc_dependent (mkData prob1)).idu :=
  claim9_calc_dependent_idem (mkData prob1)
    (by
      show (0 : ERat) < (1 : ERat)
      rw [ERat.zero_def, ERat.one_def]
      norm_num)
    (by decide)
    (by decide)
    (by
      intro c hc k hk
      simp [mkData, prob1, spEmpty, cRange, List.range'] at hk)
    (by
      intro c hc k hk
      simp [mkData, prob1, spEmpty, cRange, List.range'] at hk)
    (by decide)

/-- The linear-dependence rejection of one candidate in the companion loop
of `casadi_qp_flip_check` (source line 712): rejection requires both
`i != 12` and a small dot product with the removed column, so index 12 is
never rejected by this test. -/
def flipRejectDep (d : QPData) (w : ℕ → ERat) (i : ℕ) : Bool :=
  decide ((i : Int) ≠ 12) &&
  decide (ERat.abs (casadi_qp_kkt_dot d w i (if d.lam i == 0 then 1 else 0)) < eps12)

/-- One iteration of the companion-search loop of `casadi_qp_flip_check`
(source lines 686-720), carrying `(best_duerr, r_index, r_lam)`.  The
local `new_lam` of the source is `0` at every best-so-far update, because
the `lam[i] == 0` branch that assigns `±dmin` to it ends in `continue`. -/
def fcStep (d : QPData) (w dz dlam : ℕ → ERat) (index : ℕ)
    (s : ERat × Int × ERat) (i : ℕ) : ERat × Int × ERat :=
  if i = index then s
  else if (if d.lam i == 0 then d.neverlower i && d.neverupper i
           else d.neverzero i) then s
  else if ERat.abs (dz i) < eps12 then s
  else if ERat.abs (casadi_qp_kkt_dot2 d dlam i) < eps12 then s
  else if d.lam i == 0 then s
  else if flipRejectDep d w i then s
  else if casadi_qp_du_check d i < s.1 then (casadi_qp_du_check d i, (i : Int), 0)
  else s

/-- `casadi_qp_flip_check` (source lines 640-723), parameterized by the
external QR solve and square root (`QPExt`).  Returns
`(ret, r_index, r_lam, data)` where the data records the overwritten
`dz`, `dlam` and `w` buffers; on the early returns `r_index`/`r_lam`
keep their incoming values `r_index0`/`r_lam0`, as the source leaves the
output arguments untouched.  The workspace argument of the QR solve is
not modelled: it is fully overwritten (by `kkt_column`) before any later
read.  The first linear-independence norm is taken on the stale `dlam`
buffer, exactly as in the source. -/
def casadi_qp_flip_check (ext : QPExt) (d : QPData) (index : ℕ) (sign : Int)
    (r_index0 : Int) (r_lam0 : ERat) : Int × Int × ERat × QPData :=
  let p := d.prob
  let dz1 := ext.qr_solve (casadi_qp_kkt_vector d d.dz index) false
  let r1 := ext.sqrt (casadi_dot p.nz d.dlam d.dlam)
  if r1 < eps12 then (0, r_index0, r_lam0, { d with dz := dz1 })
  else
    let dz2 := casadi_scal p.nz (1 / r1) dz1
    let dlam1 := ext.qr_solve (casadi_qp_kkt_vector d d.dlam index) true
    let r2 := ext.sqrt (casadi_dot p.nz dlam1 dlam1)
    if r2 < eps12 then (0, r_index0, r_lam0, { d with dz := dz2, dlam := dlam1 })
    else
      let dlam2 := casadi_scal p.nz (1 / r2) dlam1
      let dz3 := ext.qr_solve (casadi_qp_kkt_column d dz2 index sign) false
      if eps12 ≤ ERat.abs (dz3 index) then
        (0, r_index0, r_lam0, { d with dz := dz3, dlam := dlam2 })
      else
        let w1 := casadi_qp_kkt_column d d.w index (if sign = 0 then 1 else 0)
        let w2 := casadi_scal p.nz (1 / ext.sqrt (casadi_dot p.nz w1 w1)) w1
        let s := (List.range p.nz).foldl (fcStep d w2 dz3 dlam2 index)
          (p.inf, -1, 0)
        (1, s.2.1, s.2.2, { d with dz := dz3, dlam := dlam2, w := w2 })

theorem fcFold_spec (d : QPData) (w dz dlam : ℕ → ERat) (index : ℕ) (n : ℕ) :
    let s := (List.range n).foldl (fcStep d w dz dlam index) (d.prob.inf, -1, 0)
    s.2.2 = 0 ∧ (s.2.1 = -1 ∨ ∃ i, i < n ∧ s.2.1 = (i : Int) ∧
      ¬ (d.lam i == (0 : ERat)) = true ∧ d.neverzero i = false) := by
  induction n with
  | zero => exact ⟨rfl, Or.inl rfl⟩
  | succ n ih =>
    obtain ⟨h1, h2⟩ := ih
    rw [List.range_succ, List.foldl_append, List.foldl_cons, List.foldl_nil]
    set sn := (List.range n).foldl (fcStep d w dz dlam index) (d.prob.inf, -1, 0)
      with hsn
    have hkeep : sn.2.2 = 0 ∧ (sn.2.1 = -1 ∨ ∃ i, i < n + 1 ∧ sn.2.1 = (i : Int) ∧
        ¬ (d.lam i == (0 : ERat)) = true ∧ d.neverzero i = false) := by
      refine ⟨h1, ?_⟩
      rcases h2 with h | ⟨i, hi, ha, hb⟩
      · exact Or.inl h
      · exact Or.inr ⟨i, Nat.lt_succ_of_lt hi, ha, hb⟩
    unfold fcStep
    by_cases c1 : n = index
    · rw [if_pos c1]; exact hkeep
    · rw [if_neg c1]
      by_cases c2 : (if d.lam n == 0 then d.neverlower n && d.neverupper n
          else d.neverzero n) = true
      · rw [if_pos c2]; exact hkeep
      · rw [if_neg c2]
        by_cases c3 : ERat.abs (dz n) < eps12
        · rw [if_pos c3]; exact hkeep
        · rw [if_neg c3]
          by_cases c4 : ERat.abs (casadi_qp_kkt_dot2 d dlam n) < eps12
          · rw [if_pos c4]; exact hkeep
          · rw [if_neg c4]
            by_cases c5 : (d.lam n == (0 : ERat)) = true
            · rw [if_pos c5]; exact hkeep
            · rw [if_neg c5]
              by_cases c6 : flipRejectDep d w n = true
              · rw [if_pos c6]; exact hkeep
              · rw [if_neg c6]
                by_cases c7 : casadi_qp_du_check d n < sn.1
                · rw [if_pos c7]
                  have hnz : d.neverzero n = false := by
                    rw [if_neg c5] at c2
                    simpa using c2
                  exact ⟨rfl, Or.inr ⟨n, Nat.lt_succ_self n, rfl, c5, hnz⟩⟩
                · rw [if_neg c7]; exact hkeep

/-- C10: for every external QR solve and square root and every state,
whenever `casadi_qp_flip_check` returns 1 the companion multiplier
`r_lam` is 0, and a companion `r_index ≥ 0` is always the drop of an
active constraint (`lam[r_index] ≠ 0`): candidates with `lam[i] = 0`,
which would be added with multiplier `±dmin`, are skipped by the
`continue` in the sign-selection branch before the best-so-far
comparison. -/
theorem claim10_flip_check_companion (ext : QPExt) (d : QPData) (index : ℕ)
    (sign r_index0 : Int) (r_lam0 : ERat) :
    ((casadi_qp_flip_check ext d index sign r_index0 r_lam0).1 = 1 →
      (casadi_qp_flip_check ext d index sign r_index0 r_lam0).2.2.1 = 0) ∧
    ((casadi_qp_flip_check ext d index sign r_index0 r_lam0).1 = 1 →
      0 ≤ (casadi_qp_flip_check ext d index sign r_index0 r_lam0).2.1 →
      ∃ i, i < d.prob.nz ∧
        (casadi_qp_flip_check ext d index sign r_index0 r_lam0).2.1 = (i : Int) ∧
        ¬ (d.lam i == (0 : ERat)) = true) := by
  simp only [casadi_qp_flip_check]
  split
  · exact ⟨fun h => absurd (show (0 : Int) = 1 from h) (by decide),
      fun h => absurd (show (0 : Int) = 1 from h) (by decide)⟩
  · split
    · exact ⟨fun h => absurd (show (0 : Int) = 1 from h) (by decide),
        fun h => absurd (show (0 : Int) = 1 from h) (by decide)⟩
    · split
      · exact ⟨fun h => absurd (show (0 : Int) = 1 from h) (by decide),
          fun h => absurd (show (0 : Int) = 1 from h) (by decide)⟩
      · refine ⟨fun _ => ?_, fun _ hge => ?_⟩
        · exact (fcFold_spec d _ _ _ index d.prob.nz).1
        · rcases (fcFold_spec d _ _ _ index d.prob.nz).2 with h | ⟨i, hi, ha, hb, _⟩
          · rw [h] at hge
            exact absurd (show (0 : Int) ≤ -1 from hge) (by decide)
          · exact ⟨i, hi, ha, hb⟩

/-- A 13-variable, 0-constraint problem descriptor with empty H and A. -/
def prob13 : QPProb :=
  { nx := 13, na := 0, nz := 13, dmin := 1, inf := ERat.posInf, du_to_pr := 1,
    sp_a := spEmpty 0 13, sp_h := spEmpty 13 13, sp_at := spEmpty 13 0,
    sp_kkt := spEmpty 13 13 }

/-- C3 state: every multiplier active, every KKT dot product zero. -/
def d3c : QPData := { mkData prob13 with lam := fun _ => 1 }

/-- C3: the linear-dependence rejection of the companion loop is NOT the
purely algebraic condition applied uniformly: the guard `i != 12` (source
line 712) exempts index 12.  At a state where the dot product with the
removed column is zero for every candidate, candidate 11 is rejected
while candidate 12 — identical in every quantity the test reads — is
not. -/
theorem claim3_dependence_guard :
    flipRejectDep d3c (fun _ => 0) 11 = true ∧
    flipRejectDep d3c (fun _ => 0) 12 = false ∧
    casadi_qp_kkt_dot d3c (fun _ => 0) 11 (if d3c.lam 11 == 0 then 1 else 0)
      = casadi_qp_kkt_dot d3c (fun _ => 0) 12 (if d3c.lam 12 == 0 then 1 else 0) := by
  refine ⟨?_, ?_, ?_⟩
  · simp only [flipRejectDep, casadi_qp_kkt_dot, d3c, mkData, prob13, spEmpty,
      cRange, ERat.zero_def, ERat.one_def, eps12]
    norm_num [ERat.abs]
  · simp only [flipRejectDep]
    norm_num
  · simp only [casadi_qp_kkt_dot, d3c, mkData, prob13, spEmpty, cRange,
      ERat.zero_def, ERat.one_def]
    norm_num

/-- Two-column symmetric off-diagonal Hessian pattern: column `c` holds
one nonzero in row `1 - c`. -/
def spH2 : Sp := ⟨2, 2, fun c => c, fun k => 1 - k⟩

def prob10 : QPProb :=
  { nx := 2, na := 0, nz := 2, dmin := 1, inf := ERat.posInf, du_to_pr := 1,
    sp_a := spEmpty 0 2, sp_h := spH2, sp_at := spEmpty 2 0,
    sp_kkt := spEmpty 2 2 }

/-- C10 state: both multipliers active, unit dual step, `H = [[0,1],[1,0]]`. -/
def d10 : QPData :=
  { mkData prob10 with
    lam := fun _ => 1,
    dlam := fun _ => 1,
    nz_h := fun _ => 1 }

/-- Identity QR solve and square root. -/
def ext10 : QPExt := ⟨fun v _ => v, fun x => x⟩

/-- C10 witness: at a concrete state the check returns 1 and selects
companion 1 with `r_lam = 0`. -/
theorem claim10_witness :
    (casadi_qp_flip_check ext10 d10 0 0 (-1) 0).1 = 1 ∧
    (casadi_qp_flip_check ext10 d10 0 0 (-1) 0).2.1 = 1 ∧
    (casadi_qp_flip_check ext10 d10 0 0 (-1) 0).2.2.1 = 0 := by
  refine ⟨?_, ?_, ?_⟩ <;>
  · simp only [casadi_qp_flip_check, ext10, d10, mkData, prob10, spH2, spEmpty,
      casadi_qp_kkt_vector, casadi_qp_kkt_column, casadi_qp_kkt_dot,
      casadi_qp_kkt_dot2, casadi_dot, casadi_scal, casadi_fill,
      casadi_qp_du_check, fcStep, flipRejectDep, updF, cRange, eps12,
      List.range_succ, List.range_zero, List.range',
      List.foldl_append, List.foldl_cons, List.foldl_nil,
      ERat.zero_def, ERat.one_def]
    norm_num [updF, casadi_fill, casadi_scal, casadi_qp_du_check, fcStep,
      flipRejectDep, cRange, List.range', List.range_succ, ERat.abs, eps12,
      casadi_qp_kkt_dot, casadi_qp_kkt_dot2, ERat.fmax, ERat.fmin]

/-- The multiplier rewrite of `calc_dependent` preserves the sign class of
each multiplier exactly (positive stays positive, negative stays negative,
zero stays zero), given a positive `dmin`. -/
theorem depLam_sign (dmin lam infeas : ERat) (hdmin : (0 : ERat) < dmin) :
    (lam ≠ 0 → depLam dmin lam infeas ≠ 0) ∧
    (lam ≤ 0 → depLam dmin lam infeas ≤ 0) ∧
    ((0 : ERat) ≤ lam → (0 : ERat) ≤ depLam dmin lam infeas) := by
  unfold depLam
  by_cases h1 : lam > 0
  · rw [if_pos h1]
    have hpos : (0 : ERat) < ERat.fmax (-infeas) dmin :=
      ERat.lt_of_lt_of_le hdmin (ERat.le_fmax_right _ _)
    refine ⟨fun _ => ERat.ne_of_gt hpos, fun hle => ?_, fun _ => ERat.le_of_lt hpos⟩
    exact absurd h1 (ERat.not_lt.mpr hle)
  · rw [if_neg h1]
    by_cases h2 : lam < 0
    · rw [if_pos h2]
      have hneg : ERat.fmin (-infeas) (-dmin) < 0 :=
        ERat.lt_of_le_of_lt (ERat.fmin_le_right _ _) (ERat.neg_lt_zero_of_pos hdmin)
      refine ⟨fun _ => ERat.ne_of_lt hneg, fun _ => ERat.le_of_lt hneg, fun hge => ?_⟩
      exact absurd h2 (ERat.not_lt.mpr hge)
    · rw [if_neg h2]
      exact ⟨fun h => h, fun h => h, fun h => h⟩

/-- `casadi_qp_calc_dependent` preserves the sign discipline. -/
theorem calc_dependent_signok (d : QPData) (hdmin : (0 : ERat) < d.prob.dmin)
    (hs : SignOK d) : SignOK (casadi_qp_calc_dependent d) := by
  intro j hj
  have hj' : j < d.prob.nz := hj
  obtain ⟨q1, q2, q3⟩ := hs j hj'
  have hl : (casadi_qp_calc_dependent d).lam j = depLamV d j := by rw [calc_lam]
  by_cases hjx : j < d.prob.nx
  · have hv : depLamV d j = depLam d.prob.dmin (d.lam j) (depInf3 d j) := by
      simp only [depLamV]
      rw [if_pos hjx]
    obtain ⟨p1, p2, p3⟩ := depLam_sign d.prob.dmin (d.lam j) (depInf3 d j) hdmin
    refine ⟨?_, ?_, ?_⟩ <;> intro hq
    · rw [hl, hv]; exact p1 (q1 hq)
    · rw [hl, hv]; exact p2 (q2 hq)
    · rw [hl, hv]; exact p3 (q3 hq)
  · have hv : depLamV d j = d.lam j := by
      simp only [depLamV]
      rw [if_neg hjx]
    refine ⟨?_, ?_, ?_⟩ <;> intro hq
    · rw [hl, hv]; exact q1 hq
    · rw [hl, hv]; exact q2 hq
    · rw [hl, hv]; exact q3 hq

/-- Writing a multiplier that respects the row's flags preserves the sign
discipline. -/
theorem signok_updF (d : QPData) (i : ℕ) (v : ERat) (hs : SignOK d)
    (h1 : d.neverzero i = true → v ≠ 0)
    (h2 : d.neverupper i = true → v ≤ 0)
    (h3 : d.neverlower i = true → (0 : ERat) ≤ v) :
    SignOK { d with lam := updF d.lam i v } := by
  intro j hj
  obtain ⟨q1, q2, q3⟩ := hs j hj
  refine ⟨?_, ?_, ?_⟩ <;> intro hq
  · show (if j = i then v else d.lam j) ≠ 0
    by_cases he : j = i
    · rw [if_pos he]; exact h1 (he ▸ hq)
    · rw [if_neg he]; exact q1 hq
  · show (if j = i then v else d.lam j) ≤ 0
    by_cases he : j = i
    · rw [if_pos he]; exact h2 (he ▸ hq)
    · rw [if_neg he]; exact q2 hq
  · show (0 : ERat) ≤ (if j = i then v else d.lam j)
    by_cases he : j = i
    · rw [if_pos he]; exact h3 (he ▸ hq)
    · rw [if_neg he]; exact q3 hq

/-- Transfer of the sign discipline between states with the same
multipliers, flags and dimension. -/
theorem signok_of_eq (d d' : QPData) (hp : d'.prob.nz = d.prob.nz)
    (hl : d'.lam = d.lam) (h1 : d'.neverzero = d.neverzero)
    (h2 : d'.neverupper = d.neverupper) (h3 : d'.neverlower = d.neverlower)
    (hs : SignOK d) : SignOK d' := by
  intro j hj
  rw [hp] at hj
  rw [hl, h1, h2, h3]
  exact hs j hj

/-- `casadi_qp_pr_index` (source lines 200-211): add the most violating
constraint when its multiplier is still zero; the sign argument is left
untouched on failure. -/
def casadi_qp_pr_index (d : QPData) (sign0 : Int) : Int × Int :=
  if d.lam d.ipr.toNat == 0 then
    (d.ipr, if d.z d.ipr.toNat < d.lbz d.ipr.toNat then -1 else 1)
  else (-1, sign0)

/-- Regularity-restore selection of `casadi_qp_flip` (source lines
986-993). -/
def flipSel1 (d : QPData) (index0 sign0 r_index r_sign : Int) : Int × Int :=
  let e := ERat.fmax (d.prob.du_to_pr * d.pr) d.du
  if (0 : Int) ≤ r_index ∧ (r_sign ≠ 0 ∨ casadi_qp_du_check d r_index.toNat ≤ e)
  then (r_index, r_sign) else (index0, sign0)

/-- Feasibility-improvement selection of `casadi_qp_flip` (source lines
995-1003); also returns the state, since `du_index` overwrites `w`. -/
def flipSel2 (d : QPData) (s1 : Int × Int) : QPData × Int × Int :=
  if s1.1 = -1 ∧ eps16 < d.tau ∧ ((0 : Int) ≤ d.ipr ∨ (0 : Int) ≤ d.idu) then
    if d.du ≤ d.prob.du_to_pr * d.pr then (d, casadi_qp_pr_index d s1.2)
    else ({ d with w := duSens d }, casadi_qp_du_index d s1.2)
  else (d, s1)

/-- Whether `casadi_qp_flip` reaches the `du_index` call. -/
def flipDuPath (d : QPData) (index0 sign0 r_index r_sign : Int) : Bool :=
  decide ((flipSel1 d index0 sign0 r_index r_sign).1 = -1) &&
  decide (eps16 < d.tau) &&
  (decide ((0 : Int) ≤ d.ipr) || decide ((0 : Int) ≤ d.idu)) &&
  !(decide (d.du ≤ d.prob.du_to_pr * d.pr))

/-- Final segment of `casadi_qp_flip` (source lines 1019-1024): enforce
the multiplier of the added constraint, recompute the dependent
quantities, and reset the index to `-2`. -/
def flipFinish (dd : QPData) (idx sgn : Int) : QPData × Int × Int :=
  let v : ERat :=
    if sgn = 0 then 0 else if 0 < sgn then dd.prob.dmin else -dd.prob.dmin
  (casadi_qp_calc_dependent { dd with lam := updF dd.lam idx.toNat v }, -2, sgn)

/-- `casadi_qp_flip` (source lines 980-1025), parameterized by the
external QR solve and square root used by `casadi_qp_flip_check`.
`index0`/`sign0` are the in-out arguments' incoming values; the result is
`(data, index, sign)`. -/
def casadi_qp_flip (ext : QPExt) (d : QPData) (index0 sign0 r_index r_sign : Int) :
    QPData × Int × Int :=
  let s2 := flipSel2 d (flipSel1 d index0 sign0 r_index r_sign)
  let d2 := s2.1
  let index2 := s2.2.1
  let sign2 := s2.2.2
  if (0 : Int) ≤ index2 then
    if d2.sing = 0 then
      let chk := casadi_qp_flip_check ext d2 index2.toNat sign2 r_index 0
      if chk.1 ≠ 0 then
        if (0 : Int) ≤ chk.2.1 then
          flipFinish { chk.2.2.2 with
            lam := updF chk.2.2.2.lam chk.2.1.toNat chk.2.2.1 } index2 sign2
        else if sign2 ≠ 0 then (chk.2.2.2, -1, sign2)
        else flipFinish chk.2.2.2 index2 sign2
      else flipFinish chk.2.2.2 index2 sign2
    else flipFinish d2 index2 sign2
  else (d2, index2, sign2)

/-- `casadi_qp_flip_check` only rewrites the `dz`, `dlam` and `w`
buffers. -/
theorem flip_check_frame (ext : QPExt) (d : QPData) (index : ℕ)
    (sign r0 : Int) (rl0 : ERat) :
    (casadi_qp_flip_check ext d index sign r0 rl0).2.2.2.prob = d.prob ∧
    (casadi_qp_flip_check ext d index sign r0 rl0).2.2.2.lam = d.lam ∧
    (casadi_qp_flip_check ext d index sign r0 rl0).2.2.2.neverzero = d.neverzero ∧
    (casadi_qp_flip_check ext d index sign r0 rl0).2.2.2.neverupper = d.neverupper ∧
    (casadi_qp_flip_check ext d index sign r0 rl0).2.2.2.neverlower = d.neverlower := by
  simp only [casadi_qp_flip_check]
  split
  · exact ⟨rfl, rfl, rfl, rfl, rfl⟩
  · split
    · exact ⟨rfl, rfl, rfl, rfl, rfl⟩
    · split
      · exact ⟨rfl, rfl, rfl, rfl, rfl⟩
      · exact ⟨rfl, rfl, rfl, rfl, rfl⟩

/-- Companion facts of `casadi_qp_flip_check`: on return 1 with a
selected companion, the companion multiplier is 0 and the companion row
is not `neverzero`. -/
theorem flip_check_companion (ext : QPExt) (d : QPData) (index : ℕ)
    (sign r0 : Int) (rl0 : ERat) :
    (casadi_qp_flip_check ext d index sign r0 rl0).1 ≠ 0 →
    (0 : Int) ≤ (casadi_qp_flip_check ext d index sign r0 rl0).2.1 →
    (casadi_qp_flip_check ext d index sign r0 rl0).2.2.1 = 0 ∧
    ∃ i, i < d.prob.nz ∧
      (casadi_qp_flip_check ext d index sign r0 rl0).2.1 = (i : Int) ∧
      d.neverzero i = false := by
  simp only [casadi_qp_flip_check]
  split
  · intro h; exact absurd rfl h
  · split
    · intro h; exact absurd rfl h
    · split
      · intro h; exact absurd rfl h
      · intro _ hge
        obtain ⟨h1, h2⟩ := fcFold_spec d _ _ _ index d.prob.nz
        refine ⟨h1, ?_⟩
        rcases h2 with h | ⟨i, hi, ha, _, hnz⟩
        · rw [h] at hge
          exact absurd (show (0 : Int) ≤ -1 from hge) (by decide)
        · exact ⟨i, hi, ha, hnz⟩

/-- The flags at a selected index permit the multiplier value that
`casadi_qp_flip` would write there. -/
def selSafe (d : QPData) (idx sgn : Int) : Prop :=
  (0 : Int) ≤ idx → idx.toNat < d.prob.nz ∧
    (sgn = 0 → d.neverzero idx.toNat = false) ∧
    (0 < sgn → d.neverupper idx.toNat = false) ∧
    (sgn < 0 → d.neverlower idx.toNat = false)

/-- The final multiplier write of `casadi_qp_flip` preserves the sign
discipline when the flags permit the written value. -/
theorem flip_write_safe (d2 : QPData) (idx sgn : Int)
    (hdmin : (0 : ERat) < d2.prob.dmin) (hs : SignOK d2)
    (f0 : sgn = 0 → d2.neverzero idx.toNat = false)
    (fp : 0 < sgn → d2.neverupper idx.toNat = false)
    (fn : sgn < 0 → d2.neverlower idx.toNat = false) :
    SignOK { d2 with lam := updF d2.lam idx.toNat (if sgn = 0 then 0 else if 0 < sgn then d2.prob.dmin else -d2.prob.dmin) } := by
  apply signok_updF d2 _ _ hs
  · intro hq
    by_cases h1 : sgn = 0
    · rw [f0 h1] at hq; cases hq
    · rw [if_neg h1]
      by_cases h2 : 0 < sgn
      · rw [if_pos h2]; exact ERat.ne_of_gt hdmin
      · rw [if_neg h2]; exact ERat.ne_of_lt (ERat.neg_lt_zero_of_pos hdmin)
  · intro hq
    by_cases h1 : sgn = 0
    · rw [if_pos h1]; exact ERat.le_refl 0
    · rw [if_neg h1]
      by_cases h2 : 0 < sgn
      · rw [fp h2] at hq; cases hq
      · rw [if_neg h2]; exact ERat.le_of_lt (ERat.neg_lt_zero_of_pos hdmin)
  · intro hq
    by_cases h1 : sgn = 0
    · rw [if_pos h1]; exact ERat.le_refl 0
    · rw [if_neg h1]
      by_cases h2 : 0 < sgn
      · rw [if_pos h2]; exact ERat.le_of_lt hdmin
      · rw [fn (by omega)] at hq; cases hq

/-- The selection phase of `casadi_qp_flip`: provided the `du_index` path
is not taken and the incoming candidates respect the flags, the selected
index and sign respect the flags; the state is unchanged apart from a
possible `w` overwrite. -/
theorem flipSel2_facts (d : QPData) (index0 sign0 r_index r_sign : Int)
    (hdu : flipDuPath d index0 sign0 r_index r_sign = false)
    (hr : selSafe d r_index r_sign)
    (h0 : selSafe d index0 sign0)
    (hipr : (0 : Int) ≤ d.ipr → d.ipr.toNat < d.prob.nz ∧
      (d.z d.ipr.toNat < d.lbz d.ipr.toNat → d.neverlower d.ipr.toNat = false) ∧
      (¬ d.z d.ipr.toNat < d.lbz d.ipr.toNat → d.neverupper d.ipr.toNat = false)) :
    ((flipSel2 d (flipSel1 d index0 sign0 r_index r_sign)).1 = d ∨
     (flipSel2 d (flipSel1 d index0 sign0 r_index r_sign)).1 = { d with w := duSens d }) ∧
    selSafe d (flipSel2 d (flipSel1 d index0 sign0 r_index r_sign)).2.1
      (flipSel2 d (flipSel1 d index0 sign0 r_index r_sign)).2.2 := by
  have hs1 : (flipSel1 d index0 sign0 r_index r_sign = (r_index, r_sign) ∧
      (0 : Int) ≤ r_index) ∨
      flipSel1 d index0 sign0 r_index r_sign = (index0, sign0) := by
    unfold flipSel1
    dsimp only
    by_cases hc : (0 : Int) ≤ r_index ∧ (r_sign ≠ 0 ∨
        casadi_qp_du_check d r_index.toNat ≤ ERat.fmax (d.prob.du_to_pr * d.pr) d.du)
    · rw [if_pos hc]; exact Or.inl ⟨rfl, hc.1⟩
    · rw [if_neg hc]; exact Or.inr rfl
  rcases hs1 with ⟨he, hge⟩ | he <;> rw [flipSel2, he]
  · have hcond : ¬ (((r_index, r_sign) : Int × Int).1 = -1 ∧ eps16 < d.tau ∧
        ((0 : Int) ≤ d.ipr ∨ (0 : Int) ≤ d.idu)) := by
      rintro ⟨h1, -, -⟩
      have : r_index = -1 := h1
      omega
    rw [if_neg hcond]
    exact ⟨Or.inl rfl, hr⟩
  · by_cases hc2 : (((index0, sign0) : Int × Int).1 = -1 ∧ eps16 < d.tau ∧
        ((0 : Int) ≤ d.ipr ∨ (0 : Int) ≤ d.idu))
    · rw [if_pos hc2]
      by_cases hc3 : d.du ≤ d.prob.du_to_pr * d.pr
      · rw [if_pos hc3]
        refine ⟨Or.inl rfl, ?_⟩
        show selSafe d (casadi_qp_pr_index d sign0).1 (casadi_qp_pr_index d sign0).2
        unfold casadi_qp_pr_index
        by_cases hc4 : (d.lam d.ipr.toNat == (0 : ERat)) = true
        · rw [if_pos hc4]
          intro hge2
          obtain ⟨l1, l2, l3⟩ := hipr hge2
          refine ⟨l1, ?_, ?_, ?_⟩
          · intro h0sgn
            by_cases hz : d.z d.ipr.toNat < d.lbz d.ipr.toNat
            · rw [if_pos hz] at h0sgn
              exact absurd (show (-1 : Int) = 0 from h0sgn) (by decide)
            · rw [if_neg hz] at h0sgn
              exact absurd (show (1 : Int) = 0 from h0sgn) (by decide)
          · intro hpos
            by_cases hz : d.z d.ipr.toNat < d.lbz d.ipr.toNat
            · rw [if_pos hz] at hpos
              exact absurd (show (0 : Int) < -1 from hpos) (by decide)
            · exact l3 hz
          · intro hneg
            by_cases hz : d.z d.ipr.toNat < d.lbz d.ipr.toNat
            · exact l2 hz
            · rw [if_neg hz] at hneg
              exact absurd (show (1 : Int) < 0 from hneg) (by decide)
        · rw [if_neg hc4]
          intro hge2
          exact absurd (show (0 : Int) ≤ -1 from hge2) (by decide)
      · exfalso
        have hi0 : index0 = -1 := hc2.1
        have htrue : flipDuPath d index0 sign0 r_index r_sign = true := by
          unfold flipDuPath
          rw [he]
          rcases hc2.2.2 with hk | hk <;>
            simp [hi0, hc2.2.1, hk, hc3]
        rw [htrue] at hdu
        cases hdu
    · rw [if_neg hc2]
      exact ⟨Or.inl rfl, h0⟩

/-- C1 (amended): the sign discipline holds at the outer-iteration
boundaries, with a caveat at `casadi_qp_flip`.  A successful
`casadi_qp_reset` establishes it; `casadi_qp_take_step` preserves it
when the flags are the ones reset computed (consistent with the bounds,
no row carrying all three); `casadi_qp_flip` preserves it ONLY under the
additional hypothesis that the `du_index` selection path is not taken
(besides the flag-compatibility of the incoming candidate pairs and of
the `pr_index` data): `casadi_qp_du_index` never consults `neverzero`,
so on that path flip can zero the multiplier of a `neverzero` row — see
the counterexample. -/
theorem claim1_sign_discipline (ext : QPExt) (d d' : QPData)
    (index0 sign0 r_index r_sign : Int) :
    ((0 : ERat) < d.prob.dmin → casadi_qp_reset d = some d' → SignOK d') ∧
    ((0 : ERat) < d.prob.dmin → SignOK d → FlagsFromBounds d → FlagsExcl d →
      SignOK (casadi_qp_take_step d)) ∧
    ((0 : ERat) < d.prob.dmin → SignOK d →
      flipDuPath d index0 sign0 r_index r_sign = false →
      selSafe d r_index r_sign → selSafe d index0 sign0 →
      ((0 : Int) ≤ d.ipr → d.ipr.toNat < d.prob.nz ∧
        (d.z d.ipr.toNat < d.lbz d.ipr.toNat → d.neverlower d.ipr.toNat = false) ∧
        (¬ d.z d.ipr.toNat < d.lbz d.ipr.toNat → d.neverupper d.ipr.toNat = false)) →
      SignOK (casadi_qp_flip ext d index0 sign0 r_index r_sign).1) := by
  refine ⟨fun hdmin h => (reset_establishes d d' hdmin h).1,
    fun hdmin hs hf he => take_step_preserves d hdmin hs hf he, ?_⟩
  intro hdmin hs hdu hr h0 hipr
  obtain ⟨hd2, hsafe⟩ := flipSel2_facts d index0 sign0 r_index r_sign hdu hr h0 hipr
  simp only [casadi_qp_flip]
  set s2 := flipSel2 d (flipSel1 d index0 sign0 r_index r_sign) with hs2
  have hsd2 : SignOK s2.1 := by
    rcases hd2 with h | h <;> rw [h] <;> exact hs
  have hdm2 : (0 : ERat) < s2.1.prob.dmin := by
    rcases hd2 with h | h <;> rw [h] <;> exact hdmin
  have hnz2 : s2.1.neverzero = d.neverzero := by
    rcases hd2 with h | h <;> rw [h]
  have hnu2 : s2.1.neverupper = d.neverupper := by
    rcases hd2 with h | h <;> rw [h]
  have hnl2 : s2.1.neverlower = d.neverlower := by
    rcases hd2 with h | h <;> rw [h]
  by_cases hc1 : (0 : Int) ≤ s2.2.1
  · rw [if_pos hc1]
    obtain ⟨hlt, f0, fp, fn⟩ := hsafe hc1
    by_cases hc2 : s2.1.sing = 0
    · rw [if_pos hc2]
      obtain ⟨fp1, fp2, fp3, fp4, fp5⟩ :=
        flip_check_frame ext s2.1 s2.2.1.toNat s2.2.2 r_index 0
      have hschk : SignOK (casadi_qp_flip_check ext s2.1 s2.2.1.toNat s2.2.2 r_index 0).2.2.2 :=
        signok_of_eq _ _ (by rw [fp1]) fp2 fp3 fp4 fp5 hsd2
      have hdmchk : (0 : ERat) <
          (casadi_qp_flip_check ext s2.1 s2.2.1.toNat s2.2.2 r_index 0).2.2.2.prob.dmin := by
        rw [fp1]; exact hdm2
      by_cases hc3 : (casadi_qp_flip_check ext s2.1 s2.2.1.toNat s2.2.2 r_index 0).1 ≠ 0
      · rw [if_pos hc3]
        by_cases hc4 : (0 : Int) ≤ (casadi_qp_flip_check ext s2.1 s2.2.1.toNat s2.2.2 r_index 0).2.1
        · rw [if_pos hc4]
          obtain ⟨hlam0, i, hi, heq, hnzf⟩ :=
            flip_check_companion ext s2.1 s2.2.1.toNat s2.2.2 r_index 0 hc3 hc4
          have hidx : (casadi_qp_flip_check ext s2.1 s2.2.1.toNat s2.2.2 r_index 0).2.1.toNat = i := by
            omega
          have hsX : SignOK { (casadi_qp_flip_check ext s2.1 s2.2.1.toNat s2.2.2 r_index 0).2.2.2 with
              lam := updF (casadi_qp_flip_check ext s2.1 s2.2.1.toNat s2.2.2 r_index 0).2.2.2.lam
                (casadi_qp_flip_check ext s2.1 s2.2.1.toNat s2.2.2 r_index 0).2.1.toNat
                (casadi_qp_flip_check ext s2.1 s2.2.1.toNat s2.2.2 r_index 0).2.2.1 } := by
            apply signok_updF _ _ _ hschk
            · intro hq
              rw [hidx, fp3, hnzf] at hq
              cases hq
            · intro _
              rw [hlam0]
              exact ERat.le_refl 0
            · intro _
              rw [hlam0]
              exact ERat.le_refl 0
          refine calc_dependent_signok _ hdmchk ?_
          exact flip_write_safe _ s2.2.1 s2.2.2 hdmchk hsX
            (fun h => by show _ = false; rw [fp3, hnz2]; exact f0 h)
            (fun h => by show _ = false; rw [fp4, hnu2]; exact fp h)
            (fun h => by show _ = false; rw [fp5, hnl2]; exact fn h)
        · rw [if_neg hc4]
          by_cases hc5 : s2.2.2 ≠ 0
          · rw [if_pos hc5]
            exact hschk
          · rw [if_neg hc5]
            refine calc_dependent_signok _ hdmchk ?_
            exact flip_write_safe _ s2.2.1 s2.2.2 hdmchk hschk
              (fun h => by show _ = false; rw [fp3, hnz2]; exact f0 h)
              (fun h => by show _ = false; rw [fp4, hnu2]; exact fp h)
              (fun h => by show _ = false; rw [fp5, hnl2]; exact fn h)
      · rw [if_neg hc3]
        refine calc_dependent_signok _ hdmchk ?_
        exact flip_write_safe _ s2.2.1 s2.2.2 hdmchk hschk
          (fun h => by show _ = false; rw [fp3, hnz2]; exact f0 h)
          (fun h => by show _ = false; rw [fp4, hnu2]; exact fp h)
          (fun h => by show _ = false; rw [fp5, hnl2]; exact fn h)
    · rw [if_neg hc2]
      refine calc_dependent_signok _ hdm2 ?_
      exact flip_write_safe _ s2.2.1 s2.2.2 hdm2 hsd2
        (fun h => by show _ = false; rw [hnz2]; exact f0 h)
        (fun h => by show _ = false; rw [hnu2]; exact fp h)
        (fun h => by show _ = false; rw [hnl2]; exact fn h)
  · rw [if_neg hc1]
    exact hsd2

/-- C1 counterexample state: one equality-constrained variable
(`lbz = ubz = 5`, so `neverzero` holds), active multiplier `lam = 1`,
positive dual error with `idu = 0`, and a singular KKT (`sing = 1`), so
`casadi_qp_flip` takes the `du_index` path and skips `flip_check`. -/
def d1c : QPData :=
  { mkData prob1 with
    z := fun _ => ERat.fin 5,
    lbz := fun _ => ERat.fin 5,
    ubz := fun _ => ERat.fin 5,
    lam := fun _ => 1,
    infeas := fun _ => ERat.fin (1/2),
    neverzero := fun _ => true,
    du := ERat.fin (1/2),
    idu := 0,
    tau := 1,
    sing := 1 }

/-- Identity QR solve and square root (never reached on the singular
path). -/
def ext1c : QPExt := ⟨fun v _ => v, fun x => x⟩

theorem d1c_du_index : casadi_qp_du_index d1c 0 = (0, 0) := by
  simp only [casadi_qp_du_index, duStep, duSens, casadi_qp_du_check,
    casadi_mv, casadi_fill, updF, cRange, d1c, mkData, prob1, spEmpty,
    List.range_succ, List.range_zero, List.range', List.foldl_append,
    List.foldl_cons, List.foldl_nil, ERat.zero_def, ERat.one_def, eps12]
  norm_num [ERat.abs, abs_div]

theorem d1c_sel : flipSel2 d1c (flipSel1 d1c (-1) 0 (-1) 0)
    = ({ d1c with w := duSens d1c }, 0, 0) := by
  have h1 : flipSel1 d1c (-1) 0 (-1) 0 = (-1, 0) := by
    unfold flipSel1
    dsimp only
    rw [if_neg]
    rintro ⟨h, -⟩
    exact absurd h (by decide)
  rw [flipSel2, h1]
  rw [if_pos ?_, if_neg ?_]
  · rw [d1c_du_index]
  · show ¬ (d1c.du ≤ d1c.prob.du_to_pr * d1c.pr)
    simp only [d1c, mkData, prob1, ERat.zero_def, ERat.one_def]
    norm_num
  · refine ⟨rfl, ?_, Or.inr (by decide)⟩
    show eps16 < d1c.tau
    simp only [d1c, mkData, prob1, eps16, ERat.one_def]
    norm_num

/-- C1 counterexample: all side conditions of the amended statement hold
except the exclusion of the `du_index` path; `casadi_qp_flip` takes that
path, selects row 0 with sign 0, and zeroes the multiplier of the
`neverzero` row — the sign discipline is violated after the flip. -/
theorem claim1_counterexample :
    (0 : ERat) < d1c.prob.dmin ∧ SignOK d1c ∧
    FlagsFromBounds d1c ∧ FlagsExcl d1c ∧
    selSafe d1c (-1) 0 ∧
    ((0 : Int) ≤ d1c.ipr → d1c.ipr.toNat < d1c.prob.nz ∧
      (d1c.z d1c.ipr.toNat < d1c.lbz d1c.ipr.toNat →
        d1c.neverlower d1c.ipr.toNat = false) ∧
      (¬ d1c.z d1c.ipr.toNat < d1c.lbz d1c.ipr.toNat →
        d1c.neverupper d1c.ipr.toNat = false)) ∧
    flipDuPath d1c (-1) 0 (-1) 0 = true ∧
    ¬ SignOK (casadi_qp_flip ext1c d1c (-1) 0 (-1) 0).1 := by
  have hflip : casadi_qp_flip ext1c d1c (-1) 0 (-1) 0
      = flipFinish { d1c with w := duSens d1c } 0 0 := by
    simp only [casadi_qp_flip, d1c_sel]
    rw [if_pos (by decide), if_neg (by decide)]
  refine ⟨?_, ?_, ?_, ?_, ?_, ?_, ?_, ?_⟩
  · show (0 : ERat) < (1 : ERat)
    rw [ERat.zero_def, ERat.one_def]
    norm_num
  · intro i hi
    refine ⟨?_, ?_, ?_⟩
    · intro _
      show (1 : ERat) ≠ 0
      rw [ERat.one_def, ERat.zero_def]
      simp
    · intro h
      exact absurd h (by simp [d1c, mkData, prob1])
    · intro h
      exact absurd h (by simp [d1c, mkData, prob1])
  · intro i hi
    refine ⟨?_, ?_, ?_⟩ <;> simp [d1c, mkData, prob1, ERat.isinf]
  · intro i hi
    rintro ⟨-, h, -⟩
    exact absurd h (by simp [d1c, mkData, prob1])
  · intro h
    exact absurd (show (0 : Int) ≤ -1 from h) (by decide)
  · intro h
    exact absurd (show (0 : Int) ≤ -1 from h) (by decide)
  · have h1 : flipSel1 d1c (-1) 0 (-1) 0 = (-1, 0) := by
      unfold flipSel1
      dsimp only
      rw [if_neg]
      rintro ⟨h, -⟩
      exact absurd h (by decide)
    unfold flipDuPath
    rw [h1]
    have h2 : eps16 < d1c.tau := by
      simp only [d1c, mkData, prob1, eps16, ERat.one_def]
      norm_num
    have h3 : ¬ (d1c.du ≤ d1c.prob.du_to_pr * d1c.pr) := by
      simp only [d1c, mkData, prob1, ERat.zero_def, ERat.one_def]
      norm_num
    simp [h2, h3]
    exact Or.inr (by decide)
  · intro hcon
    have e3 : 0 < (casadi_qp_flip ext1c d1c (-1) 0 (-1) 0).1.prob.nz := by
      rw [hflip]
      decide
    have e2 : (casadi_qp_flip ext1c d1c (-1) 0 (-1) 0).1.neverzero 0 = true := by
      rw [hflip]
      rfl
    have e1 : (casadi_qp_flip ext1c d1c (-1) 0 (-1) 0).1.lam 0 = 0 := by
      rw [hflip]
      show (casadi_qp_calc_dependent _).lam 0 = 0
      rw [calc_lam]
      simp only [depLamV, depLam, flipFinish]
      norm_num [d1c, mkData, prob1, updF]
      rw [if_neg (ERat.lt_irrefl 0), if_neg (ERat.lt_irrefl 0)]
    exact absurd e1 ((hcon 0 e3).1 e2)

/-- C2: `casadi_qp_reset` returns the infeasible-by-bounds status
(modelled as `none`) exactly when some row `i < nz` has `lbz[i] = ubz[i]`
with both bounds infinite — the row is simultaneously `neverzero`,
`neverupper` and `neverlower`; otherwise it returns the ok status (`some`
of the updated data). -/
theorem claim2_reset_infeasible (d : QPData) :
    casadi_qp_reset d = none ↔
    ∃ i, i < d.prob.nz ∧ d.lbz i = d.ubz i ∧
      (d.ubz i).isinf = true ∧ (d.lbz i).isinf = true := by
  rw [reset_none_iff]
  constructor
  · rintro ⟨i, hi, hb⟩
    exact ⟨i, List.mem_range.mp hi, hb.1, hb.2.1, hb.2.2⟩
  · rintro ⟨i, hi, h1, h2, h3⟩
    exact ⟨i, List.mem_range.mpr hi, h1, h2, h3⟩

/-- A one-row state whose bounds are equal and infinite. -/
def d2c : QPData :=
  { mkData prob1 with lbz := fun _ => ERat.posInf, ubz := fun _ => ERat.posInf }

/-- C2 witness: on the doubly-infinite equal-bounds row the reset fails. -/
theorem claim2_witness : casadi_qp_reset d2c = none :=
  (claim2_reset_infeasible d2c).mpr ⟨0, by decide, rfl, rfl, rfl⟩
